import Mathlib

/-!
Verification of the ca-ching in-memory cache engine.

This file gives a shallow embedding of the TypeScript sources
(`src/cache.ts` = `InMemoryCache`, `src/eviction.ts`, `src/utils.ts`,
`src/cache-stats.ts`, `src/cache-registry.ts`) and proves properties of the
embedded operations.

Modelling conventions:
- JS numbers used as timestamps, ttl and maxSize are modelled as `Int`
  (they are produced by an injectable time source and by configuration, and
  the code performs ordinary subtraction and comparison on them);
  byte sizes are `Nat`.
- JS truthiness on optional numbers (`!entry.ttl`, `if (this.options.maxSizeBytes)`,
  `!this.options.prefetchAfter`) is modelled by `truthyI` / `capActive`:
  `undefined` is `none`, and the value `0` is falsy.
- The injectable time source `options.time : () -> number` is modelled as a
  stream `timeFn : Nat -> Int` together with a `clock` counter in the state:
  every call the source makes to `time()` consumes one index, exactly where
  the source calls it (`isExpired` and `shouldPrefetch` only call `time()`
  after their truthiness guards pass).
- The entry store is a JS `Map`, whose iteration order is insertion order,
  `Map.set` on an existing key keeps the key's position, and `Map.delete`
  removes it; it is embedded as an association list with `setKey` (replace in
  place or append) and `eraseKey`.
- Asynchrony: `get`/`handleCacheMiss` are `async`. The embedding splits them
  at their `await` points: `getStart`/`handleMissStart` is the synchronous
  portion up to the first suspension, returning a `GetOutcome` (`done r`,
  `awaitPid p` = the caller is attached to the shared promise `p`, or
  `suspendNext` = the caller is suspended in `await nextLevelCache.get`).
  The continuations that run when a promise settles are embedded as the
  explicit functions `resumeNext`, `resolveMissFetchSuccess`,
  `resolveMissFetchFailure`, `resolvePrefetchSuccess`, `resolvePrefetchFailure`.
  Promises are identified by allocation ids (`nextPid`). Invocations of the
  configured fetch function are recorded in the instrumentation log
  `fetchLog` (one key per invocation), and next-level `get` calls in
  `nextLog`; these logs are write-only instrumentation of the injected
  collaborators and affect nothing else.
- The fetch function itself and the next-level cache are injected
  collaborators; the engine only observes "is one configured" (`hasFetch`,
  `hasNextLevel`) plus the value a resolution step delivers, so they are
  modelled by those flags and by the arguments of the resolution functions.
- All three eviction strategies' `onAccess`/`onAdd`/`onRemove` hooks are
  empty in the source, so the embedding omits the calls. The strategy's
  `selectForEviction` is a function field `sel` of the configuration; the
  LRU strategy's sort-based selection is embedded as `lruSelect`
  (`Array.prototype.sort` with comparator `a.lastAccessedAt - b.lastAccessedAt`
  is a stable comparison sort, embedded as `List.insertionSort` by
  `lastAccessedAt`).
- `calculateSizeBytes` (byte-size estimation through `JSON.stringify`) is
  abstracted as the configuration field `sizeFn : V -> Nat`, since the value
  type is abstract.
- The stored float `stats.hitRatio` is represented by the pair
  (numerator, denominator) that `updateHitRatio` computes it from:
  `(hits, hits + misses)` when the denominator is positive, else `(0, 1)`
  (representing the float 0). Equality of the pairs implies equality of the
  stored floats, which is all the claims about `hitRatio` need.
-/

namespace CaChing

abbrev Key := String

/-- `CacheKey` from `types.ts`: a string or an array of strings. -/
inductive CacheKey where
  | str (s : String)
  | arr (l : List String)
deriving DecidableEq

/-- Join key segments with the reserved separator, as `Array.prototype.join('::')`. -/
def sepJoin : List String → String
  | [] => ""
  | [s] => s
  | s :: rest => s ++ "::" ++ sepJoin rest

/-- `keyToString` from `utils.ts`: a string key is itself, an array key is joined by `::`. -/
def keyToString : CacheKey → String
  | .str s => s
  | .arr l => sepJoin l

/-- `String.prototype.split('::')` on the character list: leftmost, non-overlapping. -/
def splitSegs (acc : List Char) : List Char → List (List Char)
  | [] => [acc.reverse]
  | ':' :: ':' :: rest => acc.reverse :: splitSegs [] rest
  | c :: rest => splitSegs (c :: acc) rest

/-- `keyStr.split('::')` as used by `invalidateByPrefix`. -/
def splitKeyStr (s : String) : List String :=
  (splitSegs [] s.data).map (fun cs => String.mk cs)

/-- The indexed comparison loop of `keyStartsWith` from `utils.ts`:
for each index of the second list, the elements agree. -/
def segsMatch : List String → List String → Bool
  | _, [] => true
  | [], _ :: _ => false
  | a :: as, b :: bs => a = b && segsMatch as bs

/-- `keyStartsWith` from `utils.ts` on an already-array key: false when the key
has fewer segments than the given leading segments, else the index-by-index
comparison. -/
def keyStartsWith (ka : List String) (pfx : List String) : Bool :=
  if ka.length < pfx.length then false else segsMatch ka pfx

/-- A stored value: a plain value or a still-pending promise (`isPromise`). -/
inductive Val (V : Type) where
  | direct (v : V)
  | promiseRef (pid : Nat)
deriving DecidableEq

/-- `CacheEntry` from `cache-stats.ts`. The extra field `eid` is the object
identity of the entry (the source mutates captured entry objects in place;
`eid` lets the embedding express "the captured object is still the one in
the map"). `isPrefetching` is an optional boolean in the source, absent
(falsy) on a fresh entry. -/
structure Entry (V : Type) where
  value : Val V
  createdAt : Int
  lastAccessedAt : Int
  ttl : Option Int
  sizeBytes : Option Nat
  isPrefetching : Bool
  eid : Nat
deriving DecidableEq

/-- `CacheStats` from `cache-stats.ts`; `hitRatio` is represented by the pair
`updateHitRatio` computes it from. -/
structure Stats where
  hits : Nat
  misses : Nat
  size : Nat
  sizeBytes : Nat
  evictions : Nat
  prefetches : Nat
  hitRatio : Nat × Nat
deriving DecidableEq

/-- The zeroed statistics the constructor installs. -/
def stats0 : Stats :=
  { hits := 0, misses := 0, size := 0, sizeBytes := 0, evictions := 0,
    prefetches := 0, hitRatio := (0, 1) }

/-- Resolved configuration (`ResolvedCacheOptions`): injected collaborators are
abstracted as described in the header. -/
structure Config (V : Type) where
  maxSize : Int
  maxSizeBytes : Option Nat
  ttl : Option Int
  prefetchAfter : Option Int
  hasFetch : Bool
  hasNextLevel : Bool
  sel : List (Key × Entry V) → Nat → List Key
  sizeFn : V → Nat
  timeFn : Nat → Int

/-- Mutable state of one `InMemoryCache` instance, plus the promise-allocation
counters and the instrumentation logs. -/
structure CState (V : Type) where
  entries : List (Key × Entry V)
  stats : Stats
  pending : List (Key × Nat)
  clock : Nat
  nextPid : Nat
  nextEid : Nat
  fetchLog : List Key
  nextLog : List Key
deriving DecidableEq

/-- The state of a freshly constructed cache. -/
def initState (V : Type) : CState V :=
  { entries := [], stats := stats0, pending := [], clock := 0,
    nextPid := 0, nextEid := 0, fetchLog := [], nextLog := [] }

/-- JS truthiness of an optional number: `undefined` and `0` are falsy. -/
def truthyI : Option Int → Bool
  | none => false
  | some x => decide (x ≠ 0)

/-- The byte cap, when `this.options.maxSizeBytes` is truthy. -/
def capActive {V : Type} (cfg : Config V) : Option Nat :=
  match cfg.maxSizeBytes with
  | some b => if b = 0 then none else some b
  | none => none

/-- One call of the injected time source. -/
def tick {V : Type} (cfg : Config V) (s : CState V) : Int × CState V :=
  (cfg.timeFn s.clock, { s with clock := s.clock + 1 })

/-- Association-list lookup (JS `Map.get`). -/
def lookupKey {α : Type} (k : Key) : List (Key × α) → Option α
  | [] => none
  | (k', v) :: rest => if k' = k then some v else lookupKey k rest

/-- JS `Map.set`: replace in place, or append a new binding. -/
def setKey {α : Type} (k : Key) (v : α) : List (Key × α) → List (Key × α)
  | [] => [(k, v)]
  | (k', v') :: rest => if k' = k then (k, v) :: rest else (k', v') :: setKey k v rest

/-- JS `Map.delete`: remove the binding (the first occurrence). -/
def eraseKey {α : Type} (k : Key) : List (Key × α) → List (Key × α)
  | [] => []
  | (k', v') :: rest => if k' = k then rest else (k', v') :: eraseKey k rest

/-- The key list of an association list. -/
def keys {α : Type} (es : List (Key × α)) : List Key := es.map Prod.fst

/-- Well-formedness of the map embedding: the keys are pairwise distinct. -/
def NodupKeys {α : Type} (es : List (Key × α)) : Prop := (keys es).Nodup

instance {α : Type} {es : List (Key × α)} : Decidable (NodupKeys es) :=
  inferInstanceAs (Decidable (List.Nodup (keys es)))

/-- Total estimated bytes of the stored entries (`updateSize`'s loop: entries
with a falsy `sizeBytes` contribute nothing, which equals adding 0). -/
def sumBytes {V : Type} (es : List (Key × Entry V)) : Nat :=
  (es.map (fun p => match p.2.sizeBytes with | some b => b | none => 0)).sum

/-- `updateSize`: `stats.size` is the entry count; when a byte cap is
configured, `stats.sizeBytes` is recomputed. -/
def updSize {V : Type} (cfg : Config V) (s : CState V) : CState V :=
  match capActive cfg with
  | some _ =>
      { s with stats :=
          { s.stats with size := s.entries.length, sizeBytes := sumBytes s.entries } }
  | none => { s with stats := { s.stats with size := s.entries.length } }

/-- `updateHitRatio` (ratio represented by its defining pair). -/
def updHitRatio {V : Type} (s : CState V) : CState V :=
  let total := s.stats.hits + s.stats.misses
  { s with stats := { s.stats with
      hitRatio := if 0 < total then (s.stats.hits, total) else (0, 1) } }

/-- `stats.misses++; updateHitRatio()`. -/
def bumpMiss {V : Type} (s : CState V) : CState V :=
  updHitRatio { s with stats := { s.stats with misses := s.stats.misses + 1 } }

/-- `stats.hits++; updateHitRatio()`. -/
def bumpHit {V : Type} (s : CState V) : CState V :=
  updHitRatio { s with stats := { s.stats with hits := s.stats.hits + 1 } }

/-- The expiry test of `isExpired` as a function of the sampled time:
a falsy `ttl` (absent or 0) never expires; otherwise strict comparison
`now - createdAt > ttl`. -/
def isExpiredAt {V : Type} (now : Int) (e : Entry V) : Bool :=
  match e.ttl with
  | none => false
  | some t => if t = 0 then false else decide (now - e.createdAt > t)

/-- `isExpired` itself: the time source is consulted only after the
truthiness guard on `entry.ttl`. -/
def isExpiredT {V : Type} (cfg : Config V) (e : Entry V) (s : CState V) :
    Bool × CState V :=
  if truthyI e.ttl then
    let pr := tick cfg s
    (isExpiredAt pr.1 e, pr.2)
  else (false, s)

/-- `shouldPrefetch`: false without consulting the clock when `prefetchAfter`
or `entry.ttl` is falsy; otherwise `age >= prefetchAfter`. -/
def shouldPrefetchT {V : Type} (cfg : Config V) (e : Entry V) (s : CState V) :
    Bool × CState V :=
  if truthyI cfg.prefetchAfter && truthyI e.ttl then
    let pr := tick cfg s
    (decide (cfg.prefetchAfter.getD 0 ≤ pr.1 - e.createdAt), pr.2)
  else (false, s)

/-- `LRUEvictionStrategy.selectForEviction`: sort ascending by
`lastAccessedAt`, take the first `targetCount` keys. -/
def lruLE {V : Type} (a b : Key × Entry V) : Prop :=
  a.2.lastAccessedAt ≤ b.2.lastAccessedAt

instance {V : Type} : DecidableRel (lruLE (V := V)) :=
  fun a b => inferInstanceAs (Decidable (a.2.lastAccessedAt ≤ b.2.lastAccessedAt))

instance {V : Type} : IsTotal (Key × Entry V) lruLE :=
  ⟨fun a b => Int.le_total a.2.lastAccessedAt b.2.lastAccessedAt⟩

instance {V : Type} : IsTrans (Key × Entry V) lruLE :=
  ⟨fun _ _ _ hab hbc => le_trans hab hbc⟩

def lruSelect {V : Type} (es : List (Key × Entry V)) (n : Nat) : List Key :=
  ((es.insertionSort lruLE).take n).map Prod.fst

/-- `FILOEvictionStrategy.selectForEviction`: sort ascending by `createdAt`. -/
def filoLE {V : Type} (a b : Key × Entry V) : Prop :=
  a.2.createdAt ≤ b.2.createdAt

instance {V : Type} : DecidableRel (filoLE (V := V)) :=
  fun a b => inferInstanceAs (Decidable (a.2.createdAt ≤ b.2.createdAt))

def filoSelect {V : Type} (es : List (Key × Entry V)) (n : Nat) : List Key :=
  ((es.insertionSort filoLE).take n).map Prod.fst

/-- What every strategy's `selectForEviction` guarantees on a well-formed
entry map: the selected keys are distinct, present, and exactly
`min targetCount (entry count)` many (LRU/FILO slice a sorted permutation;
Random splices `targetCount` distinct indices out of the key array). -/
structure SelSpec {V : Type} (sel : List (Key × Entry V) → Nat → List Key) : Prop where
  length_eq : ∀ es n, NodupKeys es → (sel es n).length = min n es.length
  nodup : ∀ es n, NodupKeys es → (sel es n).Nodup
  mem : ∀ es n k, k ∈ sel es n → k ∈ keys es

/-- One step of the eviction loops: `entries.delete(key); onRemove; evictions++`
(the counter is incremented once per selected key, unconditionally). -/
def bumpEvict {V : Type} (k : Key) (s : CState V) : CState V :=
  { s with entries := eraseKey k s.entries,
           stats := { s.stats with evictions := s.stats.evictions + 1 } }

/-- The `for (const key of keysToEvict)` removal loop. -/
def removeEvictAll {V : Type} (ks : List Key) (s : CState V) : CState V :=
  ks.foldl (fun s k => bumpEvict k s) s

/-- First phase of `evictIfNecessary`: when the entry count exceeds
`maxSize`, remove `count - maxSize` strategy-selected keys. -/
def evictCountPhase {V : Type} (cfg : Config V) (s : CState V) : CState V :=
  if cfg.maxSize < (s.entries.length : Int) then
    let tgt := ((s.entries.length : Int) - cfg.maxSize).toNat
    updSize cfg (removeEvictAll (cfg.sel s.entries tgt) s)
  else s

/-- The byte-cap `while` loop of `evictIfNecessary`, with explicit fuel
(the loop in the source terminates because each iteration deletes a present
key; the fuel chosen by `evictIfNecessary` is one more than the entry count,
enough to reach the loop's exit condition). -/
def evictBytesLoop {V : Type} (cfg : Config V) (cap : Nat) :
    Nat → CState V → CState V
  | 0, s => s
  | fuel + 1, s =>
    if s.stats.sizeBytes ≠ 0 ∧ cap < s.stats.sizeBytes ∧ 0 < s.entries.length then
      match cfg.sel s.entries 1 with
      | [] => s
      | k :: ks => evictBytesLoop cfg cap fuel (updSize cfg (removeEvictAll (k :: ks) s))
    else s

/-- `evictIfNecessary`. -/
def evictIfNecessary {V : Type} (cfg : Config V) (s : CState V) : CState V :=
  let s1 := evictCountPhase cfg s
  match capActive cfg with
  | none => s1
  | some cap =>
    let s2 := updSize cfg s1
    evictBytesLoop cfg cap (s2.entries.length + 1) s2

/-- The entry literal `set` builds: timestamps from the single `time()` call,
`ttl ?? options.ttl` (nullish coalescing keeps a given 0), and a byte size
only when a byte cap is configured and the value is not a promise. -/
def newEntry {V : Type} (cfg : Config V) (value : Val V) (ttlArg : Option Int)
    (now : Int) (eid : Nat) : Entry V :=
  { value := value, createdAt := now, lastAccessedAt := now,
    ttl := ttlArg <|> cfg.ttl,
    sizeBytes :=
      match capActive cfg, value with
      | some _, .direct v => some (cfg.sizeFn v)
      | _, _ => none,
    isPrefetching := false, eid := eid }

/-- `set` (its synchronous body; forwarding to a next-level cache is a call on
the independently owned collaborator and has no effect on this state). -/
def set {V : Type} (cfg : Config V) (key : CacheKey) (value : Val V)
    (ttlArg : Option Int) (s : CState V) : CState V :=
  let kstr := keyToString key
  let pr := tick cfg s
  let s2 := { pr.2 with
      entries := setKey kstr (newEntry cfg value ttlArg pr.1 pr.2.nextEid) pr.2.entries,
      nextEid := pr.2.nextEid + 1 }
  evictIfNecessary cfg (updSize cfg s2)

/-- The outcome of the synchronous portion of a `get` call. -/
inductive GetOutcome (V : Type) where
  | done (r : Option V)
  | awaitPid (pid : Nat)
  | suspendNext
deriving DecidableEq

/-- The fetch branch of `handleCacheMiss`: invoke the fetch function (logged),
register the resulting promise in the pending map, and leave the caller
attached to it. -/
def startFetch {V : Type} (cfg : Config V) (kstr : Key) (s : CState V) :
    GetOutcome V × CState V :=
  (GetOutcome.awaitPid s.nextPid,
   { s with fetchLog := s.fetchLog ++ [kstr],
            pending := setKey kstr s.nextPid s.pending,
            nextPid := s.nextPid + 1 })

/-- The synchronous portion of `handleCacheMiss`: an already-pending fetch is
shared; else a configured next-level cache is consulted (`await`, so the
caller suspends with nothing registered yet); else the fetch function runs. -/
def handleMissStart {V : Type} (cfg : Config V) (kstr : Key) (s : CState V) :
    GetOutcome V × CState V :=
  match lookupKey kstr s.pending with
  | some pid => (GetOutcome.awaitPid pid, s)
  | none =>
    if cfg.hasNextLevel then
      (GetOutcome.suspendNext, { s with nextLog := s.nextLog ++ [kstr] })
    else if cfg.hasFetch then startFetch cfg kstr s
    else (GetOutcome.done none, s)

/-- The continuation of `handleCacheMiss` after `await nextLevelCache.get`
delivers `nextVal`: a found value is stored locally (forwardToNext = false)
and returned; otherwise the fetch branch runs (the pending map is NOT
re-checked here, faithfully to the source). -/
def resumeNext {V : Type} (cfg : Config V) (key : CacheKey) (nextVal : Option V)
    (s : CState V) : GetOutcome V × CState V :=
  let kstr := keyToString key
  match nextVal with
  | some v => (GetOutcome.done (some v), set cfg key (Val.direct v) none s)
  | none =>
    if cfg.hasFetch then startFetch cfg kstr s
    else (GetOutcome.done none, s)

/-- The synchronous portion of `get`: miss and expired-on-read bookkeeping,
access-time refresh, the prefetch trigger, hit bookkeeping, and the returned
value (a stored pending promise leaves the caller attached to it). -/
def getStart {V : Type} (cfg : Config V) (key : CacheKey) (s : CState V) :
    GetOutcome V × CState V :=
  let kstr := keyToString key
  match lookupKey kstr s.entries with
  | none => handleMissStart cfg kstr (bumpMiss s)
  | some e =>
    let ex := isExpiredT cfg e s
    if ex.1 then
      let s2 := updSize cfg { ex.2 with entries := eraseKey kstr ex.2.entries }
      handleMissStart cfg kstr (bumpMiss s2)
    else
      let pr := tick cfg ex.2
      let e1 := { e with lastAccessedAt := pr.1 }
      let s3 := { pr.2 with entries := setKey kstr e1 pr.2.entries }
      let pf := shouldPrefetchT cfg e1 s3
      let s5 :=
        if pf.1 && !e1.isPrefetching && cfg.hasFetch then
          { pf.2 with entries := setKey kstr { e1 with isPrefetching := true } pf.2.entries,
                      stats := { pf.2.stats with prefetches := pf.2.stats.prefetches + 1 },
                      fetchLog := pf.2.fetchLog ++ [kstr],
                      nextPid := pf.2.nextPid + 1 }
        else pf.2
      let s6 := bumpHit s5
      match e1.value with
      | Val.promiseRef p => (GetOutcome.awaitPid p, s6)
      | Val.direct v => (GetOutcome.done (some v), s6)

/-- `getIfAvailable`: synchronous; absent or expired (or a pending-promise
value) yields nothing; a present live entry gets its access time refreshed. -/
def getIfAvailable {V : Type} (cfg : Config V) (key : CacheKey) (s : CState V) :
    Option V × CState V :=
  let kstr := keyToString key
  match lookupKey kstr s.entries with
  | none => (none, s)
  | some e =>
    let ex := isExpiredT cfg e s
    if ex.1 then (none, ex.2)
    else
      let pr := tick cfg ex.2
      let s3 := { pr.2 with entries := setKey kstr { e with lastAccessedAt := pr.1 } pr.2.entries }
      match e.value with
      | Val.promiseRef _ => (none, s3)
      | Val.direct v => (some v, s3)

/-- The deletion loop of `invalidateByPrefix`. -/
def eraseKeys {α : Type} (ks : List Key) (es : List (Key × α)) : List (Key × α) :=
  ks.foldl (fun es k => eraseKey k es) es

/-- `invalidateByPrefix`: collect every stored key whose `split('::')`
segments start with the given segments, delete them, recompute sizes. -/
def invalidateByPrefix {V : Type} (cfg : Config V) (pfx : List String)
    (s : CState V) : CState V :=
  let keysToDelete :=
    (s.entries.filter (fun p => keyStartsWith (splitKeyStr p.1) pfx)).map Prod.fst
  updSize cfg { s with entries := eraseKeys keysToDelete s.entries }

/-- The success path of the fetch branch of `handleCacheMiss`: the awaited
value is stored via `set`, then the `finally` clause removes the pending
entry. -/
def resolveMissFetchSuccess {V : Type} (cfg : Config V) (key : CacheKey) (v : V)
    (s : CState V) : CState V :=
  let s1 := set cfg key (Val.direct v) none s
  { s1 with pending := eraseKey (keyToString key) s1.pending }

/-- The failure path: only the `finally` clause runs — nothing is stored, the
pending entry is removed, and the failure propagates to every attached
caller. -/
def resolveMissFetchFailure {V : Type} (cfg : Config V) (key : CacheKey)
    (s : CState V) : CState V :=
  { s with pending := eraseKey (keyToString key) s.pending }

/-- `entry.isPrefetching = false` on a captured entry object: visible in the
map only if the map still holds that object (same allocation id). -/
def clearFlagIfEid {V : Type} (kstr : Key) (eidC : Nat) (s : CState V) : CState V :=
  match lookupKey kstr s.entries with
  | some e =>
    if e.eid = eidC then
      { s with entries := setKey kstr { e with isPrefetching := false } s.entries }
    else s
  | none => s

/-- The prefetch continuation on success: `set(key, value)` then clear the
captured entry's flag (the entry `set` installed is a fresh object, so the
clear is visible only through `clearFlagIfEid`). -/
def resolvePrefetchSuccess {V : Type} (cfg : Config V) (key : CacheKey) (v : V)
    (eidC : Nat) (s : CState V) : CState V :=
  clearFlagIfEid (keyToString key) eidC (set cfg key (Val.direct v) none s)

/-- The prefetch continuation on failure: only the flag clear runs. -/
def resolvePrefetchFailure {V : Type} (cfg : Config V) (key : CacheKey)
    (eidC : Nat) (s : CState V) : CState V :=
  clearFlagIfEid (keyToString key) eidC s

/-- The value a caller with outcome `o` receives when promise `pid` settles
with result `res` (`error` = the fetch function's failure, propagated
unchanged to every attached caller). -/
def settle {V : Type} (o : GetOutcome V) (pid : Nat) (res : Except Unit V) :
    Option (Except Unit V) :=
  match o with
  | GetOutcome.awaitPid p => if p = pid then some res else none
  | _ => none

/-- `n` callers of `get` for the same key arriving back-to-back (legal
interleaving: the synchronous portion of each call runs without yielding). -/
def arriveN {V : Type} (cfg : Config V) (key : CacheKey) :
    Nat → CState V → List (GetOutcome V) × CState V
  | 0, s => ([], s)
  | n + 1, s =>
    let pr := getStart cfg key s
    let rest := arriveN cfg key n pr.2
    (pr.1 :: rest.1, rest.2)

/-- The constructor-time options before resolution (`CacheOptions`): the
fields the constructor's validation can look at. -/
structure RawOptions where
  maxSize : Int
  maxSizeBytes : Option Int
  ttl : Option Int
  prefetchAfter : Option Int
  evictionPolicy : String
deriving DecidableEq

inductive EvictionPolicy where
  | lru
  | filo
  | random
deriving DecidableEq

/-- `createEvictionStrategy` from `eviction.ts`: unknown policy names throw. -/
def createEvictionStrategy (policy : String) : Except String EvictionPolicy :=
  match policy with
  | "lru" => Except.ok EvictionPolicy.lru
  | "filo" => Except.ok EvictionPolicy.filo
  | "random" => Except.ok EvictionPolicy.random
  | other => Except.error ("Unsupported eviction policy: " ++ other)

/-- The `InMemoryCache` constructor's fallible part: the `prefetchAfter`
check (guarded by JS truthiness of both numbers), then strategy creation.
No other option is validated. -/
def constructCache (o : RawOptions) : Except String EvictionPolicy :=
  if truthyI o.prefetchAfter && truthyI o.ttl
      && decide (o.ttl.getD 0 ≤ o.prefetchAfter.getD 0) then
    Except.error "prefetchAfter must be less than ttl"
  else createEvictionStrategy o.evictionPolicy

/-- A sequence of `set` calls: key, value, optional per-entry ttl. -/
def SetCall (V : Type) : Type := CacheKey × Val V × Option Int

/-- Apply a sequence of `set` calls in order. -/
def applySets {V : Type} (cfg : Config V) (calls : List (SetCall V)) (s : CState V) :
    CState V :=
  calls.foldl (fun s c => set cfg c.1 c.2.1 c.2.2 s) s

/-! Concrete configurations and runs used by the witnesses and the concrete
parts of the claims (LRU policy, deterministic strictly increasing or mocked
time sources). -/

/-- Capacity 3, LRU, no TTL, strictly increasing mocked time. -/
def cfgLru3 : Config String :=
  { maxSize := 3, maxSizeBytes := none, ttl := none, prefetchAfter := none,
    hasFetch := false, hasNextLevel := false, sel := lruSelect,
    sizeFn := fun _ => 0, timeFn := fun n => (n : Int) }

/-- The C6 scenario: insert k1,k2,k3, read k1, insert k4. -/
def c6run : CState String :=
  let s1 := set cfgLru3 (CacheKey.str "k1") (Val.direct "a") none (initState String)
  let s2 := set cfgLru3 (CacheKey.str "k2") (Val.direct "b") none s1
  let s3 := set cfgLru3 (CacheKey.str "k3") (Val.direct "c") none s2
  let s4 := (getStart cfgLru3 (CacheKey.str "k1") s3).2
  set cfgLru3 (CacheKey.str "k4") (Val.direct "d") none s4

/-- Default ttl 1000; mocked time: 1000 at the `set`, 2000 at the first read,
2002 at the second read. -/
def cfgC4 : Config String :=
  { maxSize := 100, maxSizeBytes := none, ttl := some 1000, prefetchAfter := none,
    hasFetch := false, hasNextLevel := false, sel := lruSelect,
    sizeFn := fun _ => 0,
    timeFn := fun n => if n = 0 then 1000 else if n ≤ 2 then 2000 else 2002 }

def c4s1 : CState String :=
  set cfgC4 (CacheKey.str "k") (Val.direct "v") none (initState String)

/-- Default ttl 1000 and a time source frozen at 0 (for the ttl-0 entry). -/
def cfgT : Config String :=
  { maxSize := 100, maxSizeBytes := none, ttl := some 1000, prefetchAfter := none,
    hasFetch := false, hasNextLevel := false, sel := lruSelect,
    sizeFn := fun _ => 0, timeFn := fun _ => 0 }

/-- Fetch function and next-level cache both configured. -/
def cfgN : Config String :=
  { maxSize := 100, maxSizeBytes := none, ttl := none, prefetchAfter := none,
    hasFetch := true, hasNextLevel := true, sel := lruSelect,
    sizeFn := fun _ => 0, timeFn := fun n => (n : Int) }

/-- Fetch function configured, no next level. -/
def cfgF : Config String :=
  { maxSize := 100, maxSizeBytes := none, ttl := none, prefetchAfter := none,
    hasFetch := true, hasNextLevel := false, sel := lruSelect,
    sizeFn := fun _ => 0, timeFn := fun n => (n : Int) }

/-- The two-caller interleaving on `cfgN`: caller A and caller B each run the
synchronous portion of `get` (both suspend in the next-level lookup), then
each resumes with the next level reporting absent. -/
def c2s1 : GetOutcome String × CState String :=
  getStart cfgN (CacheKey.str "k") (initState String)

def c2s2 : GetOutcome String × CState String :=
  getStart cfgN (CacheKey.str "k") c2s1.2

def c2s3 : GetOutcome String × CState String :=
  resumeNext cfgN (CacheKey.str "k") none c2s2.2

def c2s4 : GetOutcome String × CState String :=
  resumeNext cfgN (CacheKey.str "k") none c2s3.2

/-- Fetch function configured, no next level, default ttl 1000; the mocked
time is 1000 at the `set` and 2002 at every later sample, so the stored
entry is expired when the concurrent readers arrive. -/
def cfgFE : Config String :=
  { maxSize := 100, maxSizeBytes := none, ttl := some 1000, prefetchAfter := none,
    hasFetch := true, hasNextLevel := false, sel := lruSelect,
    sizeFn := fun _ => 0, timeFn := fun n => if n = 0 then 1000 else 2002 }

/-- One entry "k" stored at t=1000 on `cfgFE` (expired at the 2002 samples). -/
def sE : CState String :=
  set cfgFE (CacheKey.str "k") (Val.direct "v") none (initState String)

/-- Byte cap 10, value size = string length. -/
def cfgB : Config String :=
  { maxSize := 2, maxSizeBytes := some 10, ttl := none, prefetchAfter := none,
    hasFetch := false, hasNextLevel := false, sel := lruSelect,
    sizeFn := fun v => v.length, timeFn := fun n => (n : Int) }

/-- Three oversized inserts for the C1 witness. -/
def callsB : List (SetCall String) :=
  [(CacheKey.str "a", Val.direct "xxxx", none),
   (CacheKey.str "b", Val.direct "yyyy", none),
   (CacheKey.str "c", Val.direct "zzzz", none)]

/-- ttl 1000, prefetchAfter 500, fetch configured; time 0 at the `set`,
600 at every later sample (inside the refresh window). -/
def cfgP : Config String :=
  { maxSize := 100, maxSizeBytes := none, ttl := some 1000, prefetchAfter := some 500,
    hasFetch := true, hasNextLevel := false, sel := lruSelect,
    sizeFn := fun _ => 0, timeFn := fun n => if n = 0 then 0 else 600 }

def sP : CState String :=
  set cfgP (CacheKey.str "k") (Val.direct "v") none (initState String)

/-- Four stored keys for the prefix-invalidation scenario. -/
def s9 : CState String :=
  let s1 := set cfgF (CacheKey.arr ["user", "123", "profile"]) (Val.direct "a") none
    (initState String)
  let s2 := set cfgF (CacheKey.arr ["user", "123", "settings"]) (Val.direct "b") none s1
  let s3 := set cfgF (CacheKey.arr ["user", "456", "profile"]) (Val.direct "c") none s2
  set cfgF (CacheKey.str "user") (Val.direct "d") none s3

/-- The state after one `get` on the absent key "k" of `cfgF`: one fetch in
flight (pid 0 pending). -/
def sMid : CState String :=
  (arriveN cfgF (CacheKey.str "k") 1 (initState String)).2

/-- Two abstract entries with distinct access times for the C6 witness. -/
def esW : List (Key × Entry String) :=
  [("a", { value := Val.direct "x", createdAt := 0, lastAccessedAt := 5,
           ttl := none, sizeBytes := none, isPrefetching := false, eid := 0 }),
   ("b", { value := Val.direct "y", createdAt := 1, lastAccessedAt := 9,
           ttl := none, sizeBytes := none, isPrefetching := false, eid := 1 })]

/-- Two entries k1 (older access) and k2 for the C10 LRU-order scenario. -/
def s10 : CState String :=
  set cfgLru3 (CacheKey.str "k2") (Val.direct "b") none
    (set cfgLru3 (CacheKey.str "k1") (Val.direct "a") none (initState String))

end CaChing


/-! Association-list lemmas: the JS `Map` embedding. -/

namespace CaChing

variable {α : Type} {V : Type}

@[simp] theorem keys_nil : keys ([] : List (Key × α)) = [] := rfl

@[simp] theorem keys_cons (p : Key × α) (rest : List (Key × α)) :
    keys (p :: rest) = p.1 :: keys rest := rfl

theorem lookupKey_setKey_self (k : Key) (v : α) (l : List (Key × α)) :
    lookupKey k (setKey k v l) = some v := by
  induction l with
  | nil => simp [setKey, lookupKey]
  | cons p rest ih =>
    by_cases h : p.1 = k
    · simp [setKey, h, lookupKey]
    · simp [setKey, h, lookupKey, ih]

theorem lookupKey_setKey_ne {k' k : Key} (h : k' ≠ k) (v : α) (l : List (Key × α)) :
    lookupKey k' (setKey k v l) = lookupKey k' l := by
  have h' : ¬(k = k') := Ne.symm h
  induction l with
  | nil => simp [setKey, lookupKey, h']
  | cons p rest ih =>
    by_cases hp : p.1 = k
    · subst hp
      simp [setKey, lookupKey, h']
    · simp [setKey, hp, lookupKey, ih]

theorem lookupKey_eq_none_iff (k : Key) (l : List (Key × α)) :
    lookupKey k l = none ↔ k ∉ keys l := by
  induction l with
  | nil => simp [lookupKey]
  | cons p rest ih =>
    by_cases hp : p.1 = k
    · simp [lookupKey, hp]
    · rw [lookupKey, if_neg hp, ih, keys_cons]
      simp only [List.mem_cons, not_or]
      constructor
      · intro hk
        exact ⟨fun hh => hp hh.symm, hk⟩
      · intro hk
        exact hk.2

theorem mem_keys_of_lookupKey {k : Key} {l : List (Key × α)} {v : α}
    (h : lookupKey k l = some v) : k ∈ keys l := by
  by_contra hk
  rw [← lookupKey_eq_none_iff] at hk
  rw [h] at hk
  exact Option.noConfusion hk

theorem keys_eraseKey_sublist (k : Key) (l : List (Key × α)) :
    List.Sublist (keys (eraseKey k l)) (keys l) := by
  induction l with
  | nil => simp [eraseKey]
  | cons p rest ih =>
    by_cases hp : p.1 = k
    · simpa [eraseKey, hp] using List.sublist_cons_self p.1 (keys rest)
    · simpa [eraseKey, hp] using ih.cons₂ p.1

theorem nodupKeys_eraseKey {l : List (Key × α)} (h : NodupKeys l) (k : Key) :
    NodupKeys (eraseKey k l) :=
  List.Nodup.sublist (keys_eraseKey_sublist k l) h

theorem lookupKey_eraseKey_self {l : List (Key × α)} (h : NodupKeys l) (k : Key) :
    lookupKey k (eraseKey k l) = none := by
  induction l with
  | nil => simp [eraseKey, lookupKey]
  | cons p rest ih =>
    have h2 : NodupKeys rest := by
      unfold NodupKeys at h ⊢
      simpa using (List.nodup_cons.mp (by simpa using h)).2
    have h1 : p.1 ∉ keys rest := by
      unfold NodupKeys at h
      exact (List.nodup_cons.mp (by simpa using h)).1
    by_cases hp : p.1 = k
    · subst hp
      rw [eraseKey]
      simp only [if_pos rfl]
      rw [lookupKey_eq_none_iff]
      exact h1
    · simpa [eraseKey, hp, lookupKey, hp] using ih h2

theorem lookupKey_eraseKey_ne {k' k : Key} (h : k' ≠ k) (l : List (Key × α)) :
    lookupKey k' (eraseKey k l) = lookupKey k' l := by
  induction l with
  | nil => simp [eraseKey]
  | cons p rest ih =>
    by_cases hp : p.1 = k
    · subst hp
      have h' : ¬(p.1 = k') := fun hh => h (hh.symm)
      simp [eraseKey, lookupKey, h']
    · by_cases hq : p.1 = k'
      · simp [eraseKey, hp, lookupKey, hq, h]
      · simp [eraseKey, hp, lookupKey, hq, ih]

theorem length_eraseKey_of_mem {k : Key} {l : List (Key × α)} (h : k ∈ keys l) :
    (eraseKey k l).length = l.length - 1 := by
  induction l with
  | nil => simp at h
  | cons p rest ih =>
    by_cases hp : p.1 = k
    · simp [eraseKey, hp]
    · have hr : k ∈ keys rest := by
        rcases List.mem_cons.mp (by simpa using h) with h1 | h1
        · exact absurd h1.symm hp
        · exact h1
      have hlen : 1 ≤ rest.length := by
        have hne : keys rest ≠ [] := List.ne_nil_of_mem hr
        have : rest ≠ [] := by
          intro hh
          exact hne (by simp [hh])
        exact List.length_pos.mpr this
      rw [eraseKey]
      simp only [if_neg hp, List.length_cons, ih hr]
      omega

theorem length_eraseKey_le (k : Key) (l : List (Key × α)) :
    (eraseKey k l).length ≤ l.length := by
  induction l with
  | nil => simp [eraseKey]
  | cons p rest ih =>
    rw [eraseKey]
    by_cases hp : p.1 = k
    · simp only [if_pos hp]
      exact Nat.le_succ_of_le (Nat.le_refl _)
    · simp only [if_neg hp, List.length_cons]
      exact Nat.succ_le_succ ih

theorem mem_keys_eraseKey_of_ne {k' k : Key} (h : k' ≠ k) (l : List (Key × α)) :
    k' ∈ keys (eraseKey k l) ↔ k' ∈ keys l := by
  induction l with
  | nil => simp [eraseKey]
  | cons p rest ih =>
    by_cases hp : p.1 = k
    · subst hp
      have h' : ¬(k' = p.1) := fun hh => h hh
      simp [eraseKey, h']
    · simp only [eraseKey, if_neg hp, keys_cons, List.mem_cons, ih]

theorem keys_setKey_of_mem {k : Key} {l : List (Key × α)} (h : k ∈ keys l) (v : α) :
    keys (setKey k v l) = keys l := by
  induction l with
  | nil => simp at h
  | cons p rest ih =>
    by_cases hp : p.1 = k
    · simp [setKey, hp]
    · have hr : k ∈ keys rest := by
        rcases List.mem_cons.mp (by simpa using h) with h1 | h1
        · exact absurd h1.symm hp
        · exact h1
      simp [setKey, hp, ih hr]

theorem keys_setKey_of_not_mem {k : Key} {l : List (Key × α)} (h : k ∉ keys l) (v : α) :
    keys (setKey k v l) = keys l ++ [k] := by
  induction l with
  | nil => simp [setKey]
  | cons p rest ih =>
    have hp : ¬(p.1 = k) := by
      intro hh
      exact h (by simp [hh])
    have hr : k ∉ keys rest := fun hh => h (by simp [hh])
    simp [setKey, hp, ih hr]

theorem nodupKeys_setKey {l : List (Key × α)} (h : NodupKeys l) (k : Key) (v : α) :
    NodupKeys (setKey k v l) := by
  by_cases hk : k ∈ keys l
  · unfold NodupKeys
    rw [keys_setKey_of_mem hk]
    exact h
  · unfold NodupKeys
    rw [keys_setKey_of_not_mem hk]
    simpa [List.nodup_append] using ⟨h, hk⟩

theorem length_setKey_of_mem {k : Key} {l : List (Key × α)} (h : k ∈ keys l) (v : α) :
    (setKey k v l).length = l.length := by
  have h1 : (keys (setKey k v l)).length = (keys l).length := by
    rw [keys_setKey_of_mem h]
  simpa [keys] using h1

theorem length_setKey_of_not_mem {k : Key} {l : List (Key × α)} (h : k ∉ keys l) (v : α) :
    (setKey k v l).length = l.length + 1 := by
  have h1 : (keys (setKey k v l)).length = (keys l).length + 1 := by
    simp [keys_setKey_of_not_mem h]
  simpa [keys] using h1

end CaChing

/-! Lemmas about bulk removal, the size recomputation and the stats helpers. -/

namespace CaChing

variable {α : Type} {V : Type}

theorem eraseKeys_nil (es : List (Key × α)) : eraseKeys [] es = es := rfl

theorem eraseKeys_cons (k : Key) (ks : List Key) (es : List (Key × α)) :
    eraseKeys (k :: ks) es = eraseKeys ks (eraseKey k es) := rfl

theorem nodupKeys_eraseKeys {es : List (Key × α)} (h : NodupKeys es) (ks : List Key) :
    NodupKeys (eraseKeys ks es) := by
  induction ks generalizing es with
  | nil => exact h
  | cons k ks ih => exact ih (nodupKeys_eraseKey h k)

theorem length_eraseKeys_le (ks : List Key) (es : List (Key × α)) :
    (eraseKeys ks es).length ≤ es.length := by
  induction ks generalizing es with
  | nil => exact Nat.le_refl _
  | cons k ks ih =>
    exact Nat.le_trans (ih (eraseKey k es)) (length_eraseKey_le k es)

theorem length_eraseKeys {ks : List Key} {es : List (Key × α)}
    (hnd : ks.Nodup) (hsub : ∀ k ∈ ks, k ∈ keys es) :
    (eraseKeys ks es).length = es.length - ks.length := by
  induction ks generalizing es with
  | nil => simp [eraseKeys]
  | cons k ks ih =>
    have hk : k ∈ keys es := hsub k (List.mem_cons_self k ks)
    have hnd' : ks.Nodup := (List.nodup_cons.mp hnd).2
    have hkn : k ∉ ks := (List.nodup_cons.mp hnd).1
    have hsub' : ∀ k' ∈ ks, k' ∈ keys (eraseKey k es) := by
      intro k' hk'
      have hne : k' ≠ k := fun hh => hkn (hh ▸ hk')
      exact (mem_keys_eraseKey_of_ne hne es).mpr (hsub k' (List.mem_cons_of_mem k hk'))
    rw [eraseKeys_cons, ih hnd' hsub', length_eraseKey_of_mem hk]
    have hpos : 1 ≤ es.length := by
      have hne : keys es ≠ [] := List.ne_nil_of_mem hk
      have : es ≠ [] := by
        intro hh
        exact hne (by simp [hh])
      exact List.length_pos.mpr this
    simp only [List.length_cons]
    omega

theorem lookupKey_eraseKeys {es : List (Key × α)} (h : NodupKeys es)
    (ks : List Key) (k : Key) :
    lookupKey k (eraseKeys ks es)
      = if k ∈ ks then none else lookupKey k es := by
  induction ks generalizing es with
  | nil => simp [eraseKeys]
  | cons k0 ks ih =>
    rw [eraseKeys_cons, ih (nodupKeys_eraseKey h k0)]
    by_cases hk : k = k0
    · subst hk
      by_cases hm : k ∈ ks
      · simp [hm]
      · simp [hm, lookupKey_eraseKey_self h]
    · by_cases hm : k ∈ ks
      · simp [hm, List.mem_cons, hk]
      · simp [hm, List.mem_cons, hk, lookupKey_eraseKey_ne hk]

theorem eraseKeys_keys_self (es : List (Key × α)) : eraseKeys (keys es) es = [] := by
  induction es with
  | nil => rfl
  | cons p rest ih =>
    have h1 : eraseKey p.1 (p :: rest) = rest := by
      simp [eraseKey]
    rw [keys_cons, eraseKeys_cons, h1, ih]

theorem removeEvictAll_eq (ks : List Key) (s : CState V) :
    removeEvictAll ks s
      = { s with entries := eraseKeys ks s.entries,
                 stats := { s.stats with evictions := s.stats.evictions + ks.length } } := by
  induction ks generalizing s with
  | nil => simp [removeEvictAll, eraseKeys]
  | cons k ks ih =>
    show removeEvictAll ks (bumpEvict k s) = _
    rw [ih (bumpEvict k s)]
    simp only [bumpEvict, eraseKeys_cons, List.length_cons]
    have h1 : s.stats.evictions + 1 + ks.length = s.stats.evictions + (ks.length + 1) := by
      omega
    rw [h1]

@[simp] theorem updSize_entries (cfg : Config V) (s : CState V) :
    (updSize cfg s).entries = s.entries := by
  unfold updSize
  cases capActive cfg <;> rfl

@[simp] theorem updSize_pending (cfg : Config V) (s : CState V) :
    (updSize cfg s).pending = s.pending := by
  unfold updSize
  cases capActive cfg <;> rfl

@[simp] theorem updSize_clock (cfg : Config V) (s : CState V) :
    (updSize cfg s).clock = s.clock := by
  unfold updSize
  cases capActive cfg <;> rfl

@[simp] theorem updSize_nextPid (cfg : Config V) (s : CState V) :
    (updSize cfg s).nextPid = s.nextPid := by
  unfold updSize
  cases capActive cfg <;> rfl

@[simp] theorem updSize_nextEid (cfg : Config V) (s : CState V) :
    (updSize cfg s).nextEid = s.nextEid := by
  unfold updSize
  cases capActive cfg <;> rfl

@[simp] theorem updSize_fetchLog (cfg : Config V) (s : CState V) :
    (updSize cfg s).fetchLog = s.fetchLog := by
  unfold updSize
  cases capActive cfg <;> rfl

@[simp] theorem updSize_nextLog (cfg : Config V) (s : CState V) :
    (updSize cfg s).nextLog = s.nextLog := by
  unfold updSize
  cases capActive cfg <;> rfl

theorem updSize_sizeBytes {cfg : Config V} {cap : Nat} (h : capActive cfg = some cap)
    (s : CState V) : (updSize cfg s).stats.sizeBytes = sumBytes s.entries := by
  unfold updSize
  rw [h]

@[simp] theorem updSize_hits (cfg : Config V) (s : CState V) :
    (updSize cfg s).stats.hits = s.stats.hits := by
  unfold updSize
  cases capActive cfg <;> rfl

@[simp] theorem updSize_misses (cfg : Config V) (s : CState V) :
    (updSize cfg s).stats.misses = s.stats.misses := by
  unfold updSize
  cases capActive cfg <;> rfl

@[simp] theorem updSize_prefetches (cfg : Config V) (s : CState V) :
    (updSize cfg s).stats.prefetches = s.stats.prefetches := by
  unfold updSize
  cases capActive cfg <;> rfl

@[simp] theorem updSize_evictions (cfg : Config V) (s : CState V) :
    (updSize cfg s).stats.evictions = s.stats.evictions := by
  unfold updSize
  cases capActive cfg <;> rfl

@[simp] theorem bumpMiss_entries (s : CState V) : (bumpMiss s).entries = s.entries := rfl

@[simp] theorem bumpMiss_pending (s : CState V) : (bumpMiss s).pending = s.pending := rfl

@[simp] theorem bumpMiss_clock (s : CState V) : (bumpMiss s).clock = s.clock := rfl

@[simp] theorem bumpMiss_nextPid (s : CState V) : (bumpMiss s).nextPid = s.nextPid := rfl

@[simp] theorem bumpMiss_nextEid (s : CState V) : (bumpMiss s).nextEid = s.nextEid := rfl

@[simp] theorem bumpMiss_fetchLog (s : CState V) : (bumpMiss s).fetchLog = s.fetchLog := rfl

@[simp] theorem bumpMiss_nextLog (s : CState V) : (bumpMiss s).nextLog = s.nextLog := rfl

@[simp] theorem bumpHit_entries (s : CState V) : (bumpHit s).entries = s.entries := rfl

@[simp] theorem bumpHit_pending (s : CState V) : (bumpHit s).pending = s.pending := rfl

@[simp] theorem bumpHit_fetchLog (s : CState V) : (bumpHit s).fetchLog = s.fetchLog := rfl

@[simp] theorem bumpHit_nextLog (s : CState V) : (bumpHit s).nextLog = s.nextLog := rfl

end CaChing

/-! Eviction lemmas: the capacity phase, the byte-cap loop, and `set`. -/

namespace CaChing

variable {V : Type}

theorem evictCountPhase_nodup (cfg : Config V) (s : CState V) (h : NodupKeys s.entries) :
    NodupKeys (evictCountPhase cfg s).entries := by
  unfold evictCountPhase
  by_cases hc : cfg.maxSize < (s.entries.length : Int)
  · rw [if_pos hc]
    simp only [updSize_entries, removeEvictAll_eq]
    exact nodupKeys_eraseKeys h _
  · rw [if_neg hc]
    exact h

theorem evictCountPhase_length (cfg : Config V) (s : CState V)
    (hsel : SelSpec cfg.sel) (h : NodupKeys s.entries) (hmax : 0 ≤ cfg.maxSize) :
    ((evictCountPhase cfg s).entries.length : Int) ≤ cfg.maxSize := by
  unfold evictCountPhase
  by_cases hc : cfg.maxSize < (s.entries.length : Int)
  · rw [if_pos hc]
    have hnd := hsel.nodup s.entries (((s.entries.length : Int) - cfg.maxSize).toNat) h
    have hmem := fun k hk =>
      hsel.mem s.entries (((s.entries.length : Int) - cfg.maxSize).toNat) k hk
    have hlen := hsel.length_eq s.entries (((s.entries.length : Int) - cfg.maxSize).toNat) h
    have hres := length_eraseKeys hnd hmem
    simp only [updSize_entries, removeEvictAll_eq]
    rw [hres, hlen]
    omega
  · rw [if_neg hc]
    omega

theorem evictCountPhase_frame (cfg : Config V) (s : CState V) :
    (evictCountPhase cfg s).pending = s.pending
    ∧ (evictCountPhase cfg s).clock = s.clock
    ∧ (evictCountPhase cfg s).nextPid = s.nextPid
    ∧ (evictCountPhase cfg s).nextEid = s.nextEid
    ∧ (evictCountPhase cfg s).fetchLog = s.fetchLog
    ∧ (evictCountPhase cfg s).nextLog = s.nextLog := by
  unfold evictCountPhase
  by_cases hc : cfg.maxSize < (s.entries.length : Int)
  · rw [if_pos hc]
    simp [removeEvictAll_eq]
  · rw [if_neg hc]
    exact ⟨rfl, rfl, rfl, rfl, rfl, rfl⟩

theorem evictBytesLoop_length_le (cfg : Config V) (cap fuel : Nat) (s : CState V) :
    (evictBytesLoop cfg cap fuel s).entries.length ≤ s.entries.length := by
  induction fuel generalizing s with
  | zero => exact Nat.le_refl _
  | succ fuel ih =>
    rw [evictBytesLoop]
    by_cases hg : s.stats.sizeBytes ≠ 0 ∧ cap < s.stats.sizeBytes ∧ 0 < s.entries.length
    · rw [if_pos hg]
      cases hks : cfg.sel s.entries 1 with
      | nil => exact Nat.le_refl _
      | cons k ks =>
        refine Nat.le_trans (ih _) ?_
        simp only [updSize_entries, removeEvictAll_eq]
        exact length_eraseKeys_le _ _
    · rw [if_neg hg]

theorem evictBytesLoop_nodup (cfg : Config V) (cap fuel : Nat) (s : CState V)
    (h : NodupKeys s.entries) : NodupKeys (evictBytesLoop cfg cap fuel s).entries := by
  induction fuel generalizing s with
  | zero => exact h
  | succ fuel ih =>
    rw [evictBytesLoop]
    by_cases hg : s.stats.sizeBytes ≠ 0 ∧ cap < s.stats.sizeBytes ∧ 0 < s.entries.length
    · rw [if_pos hg]
      cases hks : cfg.sel s.entries 1 with
      | nil => exact h
      | cons k ks =>
        apply ih
        simp only [updSize_entries, removeEvictAll_eq]
        exact nodupKeys_eraseKeys h _
    · rw [if_neg hg]
      exact h

theorem evictBytesLoop_frame (cfg : Config V) (cap fuel : Nat) (s : CState V) :
    (evictBytesLoop cfg cap fuel s).pending = s.pending
    ∧ (evictBytesLoop cfg cap fuel s).clock = s.clock
    ∧ (evictBytesLoop cfg cap fuel s).nextPid = s.nextPid
    ∧ (evictBytesLoop cfg cap fuel s).nextEid = s.nextEid
    ∧ (evictBytesLoop cfg cap fuel s).fetchLog = s.fetchLog
    ∧ (evictBytesLoop cfg cap fuel s).nextLog = s.nextLog := by
  induction fuel generalizing s with
  | zero => exact ⟨rfl, rfl, rfl, rfl, rfl, rfl⟩
  | succ fuel ih =>
    rw [evictBytesLoop]
    by_cases hg : s.stats.sizeBytes ≠ 0 ∧ cap < s.stats.sizeBytes ∧ 0 < s.entries.length
    · rw [if_pos hg]
      cases hks : cfg.sel s.entries 1 with
      | nil => exact ⟨rfl, rfl, rfl, rfl, rfl, rfl⟩
      | cons k ks =>
        have h1 := ih (updSize cfg (removeEvictAll (k :: ks) s))
        simpa [removeEvictAll_eq] using h1
    · rw [if_neg hg]
      exact ⟨rfl, rfl, rfl, rfl, rfl, rfl⟩

theorem evictBytesLoop_post (cfg : Config V) {cap : Nat} (fuel : Nat) (s : CState V)
    (hsel : SelSpec cfg.sel) (hcap : capActive cfg = some cap)
    (h : NodupKeys s.entries) (hacc : s.stats.sizeBytes = sumBytes s.entries)
    (hfuel : s.entries.length < fuel) :
    (evictBytesLoop cfg cap fuel s).stats.sizeBytes ≤ cap
    ∨ (evictBytesLoop cfg cap fuel s).entries = [] := by
  induction fuel generalizing s with
  | zero => omega
  | succ fuel ih =>
    rw [evictBytesLoop]
    by_cases hg : s.stats.sizeBytes ≠ 0 ∧ cap < s.stats.sizeBytes ∧ 0 < s.entries.length
    · rw [if_pos hg]
      have hone : (cfg.sel s.entries 1).length = 1 := by
        rw [hsel.length_eq s.entries 1 h]
        have := hg.2.2
        omega
      cases hks : cfg.sel s.entries 1 with
      | nil =>
        rw [hks] at hone
        simp at hone
      | cons k ks =>
        have hks0 : ks = [] := by
          rw [hks] at hone
          simpa using hone
        subst hks0
        apply ih
        · simp only [updSize_entries, removeEvictAll_eq]
          exact nodupKeys_eraseKeys h _
        · rw [updSize_sizeBytes hcap]
          simp only [updSize_entries]
        · have hkmem : k ∈ keys s.entries := by
            apply hsel.mem s.entries 1 k
            rw [hks]
            exact List.mem_cons_self k []
          simp only [updSize_entries, removeEvictAll_eq, eraseKeys_cons, eraseKeys_nil]
          rw [length_eraseKey_of_mem hkmem]
          have := hg.2.2
          omega
    · rw [if_neg hg]
      by_cases h0 : s.entries.length = 0
      · right
        exact List.length_eq_zero.mp h0
      · left
        have hc : 0 < s.entries.length := Nat.pos_of_ne_zero h0
        have hdis : s.stats.sizeBytes = 0 ∨ ¬(cap < s.stats.sizeBytes) := by tauto
        omega

theorem evictIfNecessary_eq_none {cfg : Config V} (h : capActive cfg = none)
    (s : CState V) : evictIfNecessary cfg s = evictCountPhase cfg s := by
  unfold evictIfNecessary
  rw [h]

theorem evictIfNecessary_eq_some {cfg : Config V} {cap : Nat}
    (h : capActive cfg = some cap) (s : CState V) :
    evictIfNecessary cfg s
      = evictBytesLoop cfg cap
          ((updSize cfg (evictCountPhase cfg s)).entries.length + 1)
          (updSize cfg (evictCountPhase cfg s)) := by
  unfold evictIfNecessary
  rw [h]

theorem evictIfNecessary_post (cfg : Config V) (s : CState V)
    (hsel : SelSpec cfg.sel) (hmax : 0 ≤ cfg.maxSize) (h : NodupKeys s.entries) :
    NodupKeys (evictIfNecessary cfg s).entries
    ∧ ((evictIfNecessary cfg s).entries.length : Int) ≤ cfg.maxSize
    ∧ ∀ cap, capActive cfg = some cap →
        ((evictIfNecessary cfg s).stats.sizeBytes ≤ cap
          ∨ (evictIfNecessary cfg s).entries = []) := by
  cases hcap : capActive cfg with
  | none =>
    rw [evictIfNecessary_eq_none hcap]
    refine ⟨evictCountPhase_nodup cfg s h, evictCountPhase_length cfg s hsel h hmax, ?_⟩
    intro cap hc2
    exact absurd hc2 (by simp)
  | some cap =>
    rw [evictIfNecessary_eq_some hcap]
    have hnd1 : NodupKeys (updSize cfg (evictCountPhase cfg s)).entries := by
      rw [updSize_entries]
      exact evictCountPhase_nodup cfg s h
    refine ⟨evictBytesLoop_nodup cfg cap _ _ hnd1, ?_, ?_⟩
    · have h1 := evictBytesLoop_length_le cfg cap
        ((updSize cfg (evictCountPhase cfg s)).entries.length + 1)
        (updSize cfg (evictCountPhase cfg s))
      have h2 := evictCountPhase_length cfg s hsel h hmax
      rw [updSize_entries] at h1
      simp only [updSize_entries]
      omega
    · intro cap' hc2
      have hcc : cap' = cap := by
        injection hc2 with hh
        exact hh.symm
      subst hcc
      apply evictBytesLoop_post cfg _ _ hsel hcap hnd1
      · rw [updSize_sizeBytes hcap]
        simp only [updSize_entries]
      · omega

theorem evictIfNecessary_nodup (cfg : Config V) (s : CState V) (h : NodupKeys s.entries) :
    NodupKeys (evictIfNecessary cfg s).entries := by
  cases hcap : capActive cfg with
  | none =>
    rw [evictIfNecessary_eq_none hcap]
    exact evictCountPhase_nodup cfg s h
  | some cap =>
    rw [evictIfNecessary_eq_some hcap]
    apply evictBytesLoop_nodup
    rw [updSize_entries]
    exact evictCountPhase_nodup cfg s h

theorem evictIfNecessary_frame (cfg : Config V) (s : CState V) :
    (evictIfNecessary cfg s).pending = s.pending
    ∧ (evictIfNecessary cfg s).clock = s.clock
    ∧ (evictIfNecessary cfg s).nextPid = s.nextPid
    ∧ (evictIfNecessary cfg s).nextEid = s.nextEid
    ∧ (evictIfNecessary cfg s).fetchLog = s.fetchLog
    ∧ (evictIfNecessary cfg s).nextLog = s.nextLog := by
  cases hcap : capActive cfg with
  | none =>
    rw [evictIfNecessary_eq_none hcap]
    exact evictCountPhase_frame cfg s
  | some cap =>
    rw [evictIfNecessary_eq_some hcap]
    have h1 := evictCountPhase_frame cfg s
    have h2 := evictBytesLoop_frame cfg cap
      ((updSize cfg (evictCountPhase cfg s)).entries.length + 1)
      (updSize cfg (evictCountPhase cfg s))
    simp only [updSize_pending, updSize_clock, updSize_nextPid, updSize_nextEid,
      updSize_fetchLog, updSize_nextLog] at h2
    rw [h2.1, h2.2.1, h2.2.2.1, h2.2.2.2.1, h2.2.2.2.2.1, h2.2.2.2.2.2]
    exact h1

theorem set_eq (cfg : Config V) (key : CacheKey) (value : Val V)
    (ttlArg : Option Int) (s : CState V) :
    set cfg key value ttlArg s
      = evictIfNecessary cfg (updSize cfg { s with
          clock := s.clock + 1,
          entries := setKey (keyToString key)
            (newEntry cfg value ttlArg (cfg.timeFn s.clock) s.nextEid) s.entries,
          nextEid := s.nextEid + 1 }) := rfl

theorem set_post (cfg : Config V) (key : CacheKey) (value : Val V)
    (ttlArg : Option Int) (s : CState V)
    (hsel : SelSpec cfg.sel) (hmax : 0 ≤ cfg.maxSize) (h : NodupKeys s.entries) :
    NodupKeys (set cfg key value ttlArg s).entries
    ∧ ((set cfg key value ttlArg s).entries.length : Int) ≤ cfg.maxSize
    ∧ ∀ cap, capActive cfg = some cap →
        ((set cfg key value ttlArg s).stats.sizeBytes ≤ cap
          ∨ (set cfg key value ttlArg s).entries = []) := by
  rw [set_eq]
  apply evictIfNecessary_post cfg _ hsel hmax
  rw [updSize_entries]
  exact nodupKeys_setKey h _ _

theorem set_frame (cfg : Config V) (key : CacheKey) (value : Val V)
    (ttlArg : Option Int) (s : CState V) :
    (set cfg key value ttlArg s).pending = s.pending
    ∧ (set cfg key value ttlArg s).fetchLog = s.fetchLog
    ∧ (set cfg key value ttlArg s).nextLog = s.nextLog
    ∧ (set cfg key value ttlArg s).nextPid = s.nextPid := by
  rw [set_eq]
  have h1 := evictIfNecessary_frame cfg (updSize cfg { s with
    clock := s.clock + 1,
    entries := setKey (keyToString key)
      (newEntry cfg value ttlArg (cfg.timeFn s.clock) s.nextEid) s.entries,
    nextEid := s.nextEid + 1 })
  simp only [updSize_pending, updSize_fetchLog, updSize_nextLog, updSize_nextPid] at h1
  exact ⟨h1.1, h1.2.2.2.2.1, h1.2.2.2.2.2, h1.2.2.1⟩

theorem set_nodup (cfg : Config V) (key : CacheKey) (value : Val V)
    (ttlArg : Option Int) (s : CState V) (h : NodupKeys s.entries) :
    NodupKeys (set cfg key value ttlArg s).entries := by
  rw [set_eq]
  apply evictIfNecessary_nodup
  rw [updSize_entries]
  exact nodupKeys_setKey h _ _

end CaChing

/-! LRU selection: the sorted slice picks exactly the oldest-accessed keys. -/

namespace CaChing

variable {V : Type}

theorem nodupKeys_iff_pairwise {es : List (Key × Entry V)} :
    NodupKeys es ↔ es.Pairwise (fun a b => a.1 ≠ b.1) := by
  unfold NodupKeys keys List.Nodup
  rw [List.pairwise_map]

theorem eq_of_mem_nodupKeys {es : List (Key × Entry V)} (h : NodupKeys es)
    {p q : Key × Entry V} (hp : p ∈ es) (hq : q ∈ es) (hk : p.1 = q.1) : p = q := by
  by_contra hne
  have hpw := nodupKeys_iff_pairwise.mp h
  have hsymm : Symmetric (fun a b : Key × Entry V => a.1 ≠ b.1) :=
    fun a b hab => fun hh => hab hh.symm
  exact (hpw.forall hsymm) hp hq hne hk

theorem ne_lastAccessed_of_nodup {es : List (Key × Entry V)}
    (ht : (es.map (fun p => p.2.lastAccessedAt)).Nodup)
    {p q : Key × Entry V} (hp : p ∈ es) (hq : q ∈ es) (hne : p ≠ q) :
    p.2.lastAccessedAt ≠ q.2.lastAccessedAt := by
  rw [List.Nodup, List.pairwise_map] at ht
  have hsymm : Symmetric
      (fun a b : Key × Entry V => a.2.lastAccessedAt ≠ b.2.lastAccessedAt) :=
    fun a b hab => fun hh => hab hh.symm
  exact (ht.forall hsymm) hp hq hne

theorem selSpec_lru : SelSpec (lruSelect (V := V)) := by
  constructor
  · intro es n _
    unfold lruSelect
    rw [List.length_map, List.length_take, List.length_insertionSort]
  · intro es n h
    unfold lruSelect
    have hperm : List.Perm (es.insertionSort lruLE) es := List.perm_insertionSort lruLE es
    have hnd : ((es.insertionSort lruLE).map Prod.fst).Nodup :=
      ((hperm.map Prod.fst).nodup_iff).mpr h
    exact hnd.sublist ((List.take_sublist n _).map Prod.fst)
  · intro es n k hk
    unfold lruSelect at hk
    have h1 : k ∈ (es.insertionSort lruLE).map Prod.fst :=
      ((List.take_sublist n _).map Prod.fst).subset hk
    have hperm : List.Perm (es.insertionSort lruLE) es := List.perm_insertionSort lruLE es
    exact (hperm.map Prod.fst).subset h1

theorem sorted_take_drop {l : List (Key × Entry V)} (h : List.Sorted lruLE l) (n : Nat)
    {a b : Key × Entry V} (ha : a ∈ l.take n) (hb : b ∈ l.drop n) : lruLE a b := by
  have hpw : (l.take n ++ l.drop n).Pairwise lruLE := by
    rw [List.take_append_drop]
    exact h
  exact (List.pairwise_append.mp hpw).2.2 a ha b hb

theorem lruSelect_smallest {es : List (Key × Entry V)} {n : Nat}
    (hk : NodupKeys es) (ht : (es.map (fun p => p.2.lastAccessedAt)).Nodup)
    {p q : Key × Entry V} (hp : p ∈ es) (hq : q ∈ es)
    (hpin : p.1 ∈ lruSelect es n) (hqout : q.1 ∉ lruSelect es n) :
    p.2.lastAccessedAt < q.2.lastAccessedAt := by
  have hperm : List.Perm (es.insertionSort lruLE) es := List.perm_insertionSort lruLE es
  unfold lruSelect at hpin hqout
  rcases List.mem_map.mp hpin with ⟨p', hp'mem, hp'eq⟩
  have hp'es : p' ∈ es := hperm.subset ((List.take_sublist n _).subset hp'mem)
  have hpp : p' = p := eq_of_mem_nodupKeys hk hp'es hp hp'eq
  subst hpp
  have hqsort : q ∈ es.insertionSort lruLE := hperm.mem_iff.mpr hq
  have hqtake : q ∉ (es.insertionSort lruLE).take n := by
    intro hmem
    exact hqout (List.mem_map.mpr ⟨q, hmem, rfl⟩)
  have hqdrop : q ∈ (es.insertionSort lruLE).drop n := by
    have := (List.take_append_drop n (es.insertionSort lruLE)) ▸ hqsort
    rcases List.mem_append.mp this with h1 | h1
    · exact absurd h1 hqtake
    · exact h1
  have hle : lruLE p' q :=
    sorted_take_drop (List.sorted_insertionSort lruLE es) n hp'mem hqdrop
  have hne : p' ≠ q := by
    intro hh
    subst hh
    exact hqout hpin
  exact lt_of_le_of_ne hle (ne_lastAccessed_of_nodup ht hp'es hq hne)

end CaChing

/-! Characterizations of the read paths. -/

namespace CaChing

variable {V : Type}

@[simp] theorem isExpiredT_entries (cfg : Config V) (e : Entry V) (s : CState V) :
    (isExpiredT cfg e s).2.entries = s.entries := by
  unfold isExpiredT
  by_cases h : truthyI e.ttl <;> simp [h, tick]

@[simp] theorem isExpiredT_stats (cfg : Config V) (e : Entry V) (s : CState V) :
    (isExpiredT cfg e s).2.stats = s.stats := by
  unfold isExpiredT
  by_cases h : truthyI e.ttl <;> simp [h, tick]

@[simp] theorem isExpiredT_pending (cfg : Config V) (e : Entry V) (s : CState V) :
    (isExpiredT cfg e s).2.pending = s.pending := by
  unfold isExpiredT
  by_cases h : truthyI e.ttl <;> simp [h, tick]

@[simp] theorem isExpiredT_fetchLog (cfg : Config V) (e : Entry V) (s : CState V) :
    (isExpiredT cfg e s).2.fetchLog = s.fetchLog := by
  unfold isExpiredT
  by_cases h : truthyI e.ttl <;> simp [h, tick]

@[simp] theorem isExpiredT_nextLog (cfg : Config V) (e : Entry V) (s : CState V) :
    (isExpiredT cfg e s).2.nextLog = s.nextLog := by
  unfold isExpiredT
  by_cases h : truthyI e.ttl <;> simp [h, tick]

@[simp] theorem isExpiredT_nextPid (cfg : Config V) (e : Entry V) (s : CState V) :
    (isExpiredT cfg e s).2.nextPid = s.nextPid := by
  unfold isExpiredT
  by_cases h : truthyI e.ttl <;> simp [h, tick]

@[simp] theorem isExpiredT_nextEid (cfg : Config V) (e : Entry V) (s : CState V) :
    (isExpiredT cfg e s).2.nextEid = s.nextEid := by
  unfold isExpiredT
  by_cases h : truthyI e.ttl <;> simp [h, tick]

theorem isExpiredT_of_falsy {cfg : Config V} {e : Entry V} (h : truthyI e.ttl = false)
    (s : CState V) : isExpiredT cfg e s = (false, s) := by
  simp [isExpiredT, h]

theorem isExpiredT_of_truthy {cfg : Config V} {e : Entry V} (h : truthyI e.ttl = true)
    (s : CState V) :
    isExpiredT cfg e s = (isExpiredAt (cfg.timeFn s.clock) e,
      { s with clock := s.clock + 1 }) := by
  simp [isExpiredT, h, tick]

theorem isExpiredT_fst {cfg : Config V} {e : Entry V} (s : CState V) :
    (isExpiredT cfg e s).1
      = (truthyI e.ttl && isExpiredAt (cfg.timeFn s.clock) e) := by
  by_cases h : truthyI e.ttl
  · rw [isExpiredT_of_truthy h, h]
    simp
  · rw [isExpiredT_of_falsy (by simpa using h)]
    simp [h]

@[simp] theorem shouldPrefetchT_entries (cfg : Config V) (e : Entry V) (s : CState V) :
    (shouldPrefetchT cfg e s).2.entries = s.entries := by
  unfold shouldPrefetchT
  by_cases h : truthyI cfg.prefetchAfter && truthyI e.ttl <;> simp [h, tick]

@[simp] theorem shouldPrefetchT_stats (cfg : Config V) (e : Entry V) (s : CState V) :
    (shouldPrefetchT cfg e s).2.stats = s.stats := by
  unfold shouldPrefetchT
  by_cases h : truthyI cfg.prefetchAfter && truthyI e.ttl <;> simp [h, tick]

@[simp] theorem shouldPrefetchT_pending (cfg : Config V) (e : Entry V) (s : CState V) :
    (shouldPrefetchT cfg e s).2.pending = s.pending := by
  unfold shouldPrefetchT
  by_cases h : truthyI cfg.prefetchAfter && truthyI e.ttl <;> simp [h, tick]

@[simp] theorem shouldPrefetchT_fetchLog (cfg : Config V) (e : Entry V) (s : CState V) :
    (shouldPrefetchT cfg e s).2.fetchLog = s.fetchLog := by
  unfold shouldPrefetchT
  by_cases h : truthyI cfg.prefetchAfter && truthyI e.ttl <;> simp [h, tick]

@[simp] theorem shouldPrefetchT_nextLog (cfg : Config V) (e : Entry V) (s : CState V) :
    (shouldPrefetchT cfg e s).2.nextLog = s.nextLog := by
  unfold shouldPrefetchT
  by_cases h : truthyI cfg.prefetchAfter && truthyI e.ttl <;> simp [h, tick]

@[simp] theorem shouldPrefetchT_nextPid (cfg : Config V) (e : Entry V) (s : CState V) :
    (shouldPrefetchT cfg e s).2.nextPid = s.nextPid := by
  unfold shouldPrefetchT
  by_cases h : truthyI cfg.prefetchAfter && truthyI e.ttl <;> simp [h, tick]

@[simp] theorem shouldPrefetchT_nextEid (cfg : Config V) (e : Entry V) (s : CState V) :
    (shouldPrefetchT cfg e s).2.nextEid = s.nextEid := by
  unfold shouldPrefetchT
  by_cases h : truthyI cfg.prefetchAfter && truthyI e.ttl <;> simp [h, tick]

theorem shouldPrefetchT_of_truthy {cfg : Config V} {e : Entry V}
    (hpa : truthyI cfg.prefetchAfter = true) (ht : truthyI e.ttl = true)
    (s : CState V) :
    shouldPrefetchT cfg e s
      = (decide (cfg.prefetchAfter.getD 0 ≤ cfg.timeFn s.clock - e.createdAt),
         { s with clock := s.clock + 1 }) := by
  simp [shouldPrefetchT, hpa, ht, tick]

theorem getIfAvailable_absent {cfg : Config V} {key : CacheKey} {s : CState V}
    (h : lookupKey (keyToString key) s.entries = none) :
    getIfAvailable cfg key s = (none, s) := by
  simp only [getIfAvailable, h]

theorem getIfAvailable_expired {cfg : Config V} {key : CacheKey} {s : CState V}
    {e : Entry V} (h : lookupKey (keyToString key) s.entries = some e)
    (hex : (isExpiredT cfg e s).1 = true) :
    getIfAvailable cfg key s = (none, (isExpiredT cfg e s).2) := by
  simp only [getIfAvailable, h, hex, if_true]

theorem getIfAvailable_live {cfg : Config V} {key : CacheKey} {s : CState V}
    {e : Entry V} (h : lookupKey (keyToString key) s.entries = some e)
    (hex : (isExpiredT cfg e s).1 = false) :
    getIfAvailable cfg key s
      = ((match e.value with
          | Val.promiseRef _ => none
          | Val.direct v => some v),
         { (isExpiredT cfg e s).2 with
             clock := (isExpiredT cfg e s).2.clock + 1,
             entries := setKey (keyToString key)
               { e with lastAccessedAt := cfg.timeFn (isExpiredT cfg e s).2.clock }
               (isExpiredT cfg e s).2.entries }) := by
  simp only [getIfAvailable, h, hex, Bool.false_eq_true, if_false, tick]
  cases hv : e.value <;> simp [hv]

theorem getStart_miss {cfg : Config V} {key : CacheKey} {s : CState V}
    (h : lookupKey (keyToString key) s.entries = none) :
    getStart cfg key s = handleMissStart cfg (keyToString key) (bumpMiss s) := by
  simp only [getStart, h]

theorem getStart_expired {cfg : Config V} {key : CacheKey} {s : CState V}
    {e : Entry V} (h : lookupKey (keyToString key) s.entries = some e)
    (hex : (isExpiredT cfg e s).1 = true) :
    getStart cfg key s
      = handleMissStart cfg (keyToString key)
          (bumpMiss (updSize cfg
            { (isExpiredT cfg e s).2 with
              entries := eraseKey (keyToString key) (isExpiredT cfg e s).2.entries })) := by
  simp only [getStart, h, hex, if_true]

theorem getStart_live {cfg : Config V} {key : CacheKey} {s : CState V}
    {e : Entry V} (h : lookupKey (keyToString key) s.entries = some e)
    (hex : (isExpiredT cfg e s).1 = false) :
    getStart cfg key s
      = (let s1 := (isExpiredT cfg e s).2
         let e1 : Entry V := { e with lastAccessedAt := cfg.timeFn s1.clock }
         let s3 : CState V :=
           { s1 with clock := s1.clock + 1,
                     entries := setKey (keyToString key) e1 s1.entries }
         let s5 : CState V :=
           if (shouldPrefetchT cfg e1 s3).1 && !e1.isPrefetching && cfg.hasFetch then
             { (shouldPrefetchT cfg e1 s3).2 with
                 entries :=
                   setKey (keyToString key) { e1 with isPrefetching := true }
                     (shouldPrefetchT cfg e1 s3).2.entries,
                 stats :=
                   { (shouldPrefetchT cfg e1 s3).2.stats with
                     prefetches := (shouldPrefetchT cfg e1 s3).2.stats.prefetches + 1 },
                 fetchLog := (shouldPrefetchT cfg e1 s3).2.fetchLog ++ [keyToString key],
                 nextPid := (shouldPrefetchT cfg e1 s3).2.nextPid + 1 }
           else (shouldPrefetchT cfg e1 s3).2
         ((match e1.value with
           | Val.promiseRef p => GetOutcome.awaitPid p
           | Val.direct v => GetOutcome.done (some v)), bumpHit s5)) := by
  simp only [getStart, h, hex, Bool.false_eq_true, if_false, tick]
  cases hv : e.value <;> simp [hv]

theorem handleMissStart_pending {cfg : Config V} {kstr : Key} {s : CState V} {pid : Nat}
    (h : lookupKey kstr s.pending = some pid) :
    handleMissStart cfg kstr s = (GetOutcome.awaitPid pid, s) := by
  simp only [handleMissStart, h]

theorem handleMissStart_next {cfg : Config V} {kstr : Key} {s : CState V}
    (h : lookupKey kstr s.pending = none) (hn : cfg.hasNextLevel = true) :
    handleMissStart cfg kstr s
      = (GetOutcome.suspendNext, { s with nextLog := s.nextLog ++ [kstr] }) := by
  simp only [handleMissStart, h, hn, if_true]

theorem handleMissStart_fetch {cfg : Config V} {kstr : Key} {s : CState V}
    (h : lookupKey kstr s.pending = none) (hn : cfg.hasNextLevel = false)
    (hf : cfg.hasFetch = true) :
    handleMissStart cfg kstr s = startFetch cfg kstr s := by
  simp only [handleMissStart, h, hn, hf, Bool.false_eq_true, if_false, if_true]

theorem handleMissStart_nothing {cfg : Config V} {kstr : Key} {s : CState V}
    (h : lookupKey kstr s.pending = none) (hn : cfg.hasNextLevel = false)
    (hf : cfg.hasFetch = false) :
    handleMissStart cfg kstr s = (GetOutcome.done none, s) := by
  simp only [handleMissStart, h, hn, hf, Bool.false_eq_true, if_false]

theorem handleMissStart_entries (cfg : Config V) (kstr : Key) (s : CState V) :
    (handleMissStart cfg kstr s).2.entries = s.entries := by
  unfold handleMissStart startFetch
  cases h : lookupKey kstr s.pending with
  | some pid => rfl
  | none =>
    by_cases hn : cfg.hasNextLevel <;> by_cases hf : cfg.hasFetch <;> simp [hn, hf]

theorem handleMissStart_frame (cfg : Config V) (kstr : Key) (s : CState V) :
    (handleMissStart cfg kstr s).2.entries = s.entries
    ∧ (handleMissStart cfg kstr s).2.stats = s.stats
    ∧ (handleMissStart cfg kstr s).2.clock = s.clock
    ∧ (handleMissStart cfg kstr s).2.nextEid = s.nextEid := by
  unfold handleMissStart startFetch
  cases h : lookupKey kstr s.pending with
  | some pid => exact ⟨rfl, rfl, rfl, rfl⟩
  | none =>
    by_cases hn : cfg.hasNextLevel <;> by_cases hf : cfg.hasFetch <;> simp [hn, hf]

end CaChing

/-! Lookup evolution through eviction and `set`; continuation lemmas. -/

namespace CaChing

variable {α : Type} {V : Type}

theorem lookupKey_eraseKeys_or {l : List (Key × α)} (h : NodupKeys l)
    (ks : List Key) (k : Key) :
    lookupKey k (eraseKeys ks l) = lookupKey k l
    ∨ lookupKey k (eraseKeys ks l) = none := by
  rw [lookupKey_eraseKeys h]
  by_cases hm : k ∈ ks
  · right
    rw [if_pos hm]
  · left
    rw [if_neg hm]

theorem lookupKey_evictCountPhase (cfg : Config V) (s : CState V)
    (h : NodupKeys s.entries) (k : Key) :
    lookupKey k (evictCountPhase cfg s).entries = lookupKey k s.entries
    ∨ lookupKey k (evictCountPhase cfg s).entries = none := by
  unfold evictCountPhase
  by_cases hc : cfg.maxSize < (s.entries.length : Int)
  · rw [if_pos hc]
    simp only [updSize_entries, removeEvictAll_eq]
    exact lookupKey_eraseKeys_or h _ k
  · rw [if_neg hc]
    left
    rfl

theorem lookupKey_evictBytesLoop (cfg : Config V) (cap fuel : Nat) (s : CState V)
    (h : NodupKeys s.entries) (k : Key) :
    lookupKey k (evictBytesLoop cfg cap fuel s).entries = lookupKey k s.entries
    ∨ lookupKey k (evictBytesLoop cfg cap fuel s).entries = none := by
  induction fuel generalizing s with
  | zero => exact Or.inl rfl
  | succ fuel ih =>
    rw [evictBytesLoop]
    by_cases hg : s.stats.sizeBytes ≠ 0 ∧ cap < s.stats.sizeBytes ∧ 0 < s.entries.length
    · rw [if_pos hg]
      cases hks : cfg.sel s.entries 1 with
      | nil => exact Or.inl rfl
      | cons k0 ks =>
        have hnd' : NodupKeys (updSize cfg (removeEvictAll (k0 :: ks) s)).entries := by
          simp only [updSize_entries, removeEvictAll_eq]
          exact nodupKeys_eraseKeys h _
        rcases ih (updSize cfg (removeEvictAll (k0 :: ks) s)) hnd' with h1 | h1
        · rw [h1]
          simp only [updSize_entries, removeEvictAll_eq]
          exact lookupKey_eraseKeys_or h _ k
        · exact Or.inr h1
    · rw [if_neg hg]
      exact Or.inl rfl

theorem lookupKey_evictIfNecessary (cfg : Config V) (s : CState V)
    (h : NodupKeys s.entries) (k : Key) :
    lookupKey k (evictIfNecessary cfg s).entries = lookupKey k s.entries
    ∨ lookupKey k (evictIfNecessary cfg s).entries = none := by
  cases hcap : capActive cfg with
  | none =>
    rw [evictIfNecessary_eq_none hcap]
    exact lookupKey_evictCountPhase cfg s h k
  | some cap =>
    rw [evictIfNecessary_eq_some hcap]
    have hnd1 : NodupKeys (updSize cfg (evictCountPhase cfg s)).entries := by
      rw [updSize_entries]
      exact evictCountPhase_nodup cfg s h
    rcases lookupKey_evictBytesLoop cfg cap _ (updSize cfg (evictCountPhase cfg s)) hnd1 k
      with h1 | h1
    · rw [h1, updSize_entries]
      exact lookupKey_evictCountPhase cfg s h k
    · exact Or.inr h1

theorem lookupKey_set_self (cfg : Config V) (key : CacheKey) (value : Val V)
    (ttlArg : Option Int) (s : CState V) (h : NodupKeys s.entries) :
    lookupKey (keyToString key) (set cfg key value ttlArg s).entries
      = some (newEntry cfg value ttlArg (cfg.timeFn s.clock) s.nextEid)
    ∨ lookupKey (keyToString key) (set cfg key value ttlArg s).entries = none := by
  rw [set_eq]
  have hnd : NodupKeys (updSize cfg { s with
      clock := s.clock + 1,
      entries := setKey (keyToString key)
        (newEntry cfg value ttlArg (cfg.timeFn s.clock) s.nextEid) s.entries,
      nextEid := s.nextEid + 1 }).entries := by
    rw [updSize_entries]
    exact nodupKeys_setKey h _ _
  rcases lookupKey_evictIfNecessary cfg _ hnd (keyToString key) with h1 | h1
  · left
    rw [h1, updSize_entries]
    exact lookupKey_setKey_self _ _ _
  · right
    exact h1

theorem clearFlagIfEid_keeps_false {kstr : Key} {eidC : Nat} {s : CState V}
    (h : ∀ e, lookupKey kstr s.entries = some e → e.isPrefetching = false) :
    ∀ e', lookupKey kstr (clearFlagIfEid kstr eidC s).entries = some e' →
      e'.isPrefetching = false := by
  intro e' h'
  unfold clearFlagIfEid at h'
  cases hl : lookupKey kstr s.entries with
  | none =>
    simp only [hl] at h'
    exact absurd h' (by simp)
  | some e =>
    simp only [hl] at h'
    by_cases he : e.eid = eidC
    · rw [if_pos he] at h'
      simp only at h'
      rw [lookupKey_setKey_self] at h'
      injection h' with hh
      rw [← hh]
    · rw [if_neg he] at h'
      exact h e' h'

theorem clearFlagIfEid_of_eid {kstr : Key} {eidC : Nat} {s : CState V} {e : Entry V}
    (hl : lookupKey kstr s.entries = some e) (he : e.eid = eidC) :
    lookupKey kstr (clearFlagIfEid kstr eidC s).entries
      = some { e with isPrefetching := false } := by
  unfold clearFlagIfEid
  simp only [hl, if_pos he]
  exact lookupKey_setKey_self _ _ _

@[simp] theorem startFetch_fetchLog (cfg : Config V) (kstr : Key) (s : CState V) :
    (startFetch cfg kstr s).2.fetchLog = s.fetchLog ++ [kstr] := rfl

@[simp] theorem startFetch_outcome (cfg : Config V) (kstr : Key) (s : CState V) :
    (startFetch cfg kstr s).1 = GetOutcome.awaitPid s.nextPid := rfl

@[simp] theorem startFetch_entries (cfg : Config V) (kstr : Key) (s : CState V) :
    (startFetch cfg kstr s).2.entries = s.entries := rfl

@[simp] theorem startFetch_pending (cfg : Config V) (kstr : Key) (s : CState V) :
    (startFetch cfg kstr s).2.pending = setKey kstr s.nextPid s.pending := rfl

@[simp] theorem bumpMiss_prefetches (s : CState V) :
    (bumpMiss s).stats.prefetches = s.stats.prefetches := rfl

@[simp] theorem bumpMiss_misses (s : CState V) :
    (bumpMiss s).stats.misses = s.stats.misses + 1 := rfl

@[simp] theorem bumpHit_prefetches (s : CState V) :
    (bumpHit s).stats.prefetches = s.stats.prefetches := rfl

theorem applySets_append (cfg : Config V) (a b : List (SetCall V)) (s : CState V) :
    applySets cfg (a ++ b) s = applySets cfg b (applySets cfg a s) := by
  unfold applySets
  rw [List.foldl_append]

theorem applySets_nodup (cfg : Config V) (calls : List (SetCall V)) (s : CState V)
    (h : NodupKeys s.entries) : NodupKeys (applySets cfg calls s).entries := by
  induction calls generalizing s with
  | nil => exact h
  | cons c rest ih => exact ih _ (set_nodup cfg c.1 c.2.1 c.2.2 s h)

end CaChing

/-! Sharing of a pending fetch across sequential arrivals; prefix matching. -/

namespace CaChing

variable {V : Type}

theorem arriveN_shared (cfg : Config V) (key : CacheKey) (n : Nat) :
    ∀ (s : CState V) (pid : Nat),
      lookupKey (keyToString key) s.entries = none →
      lookupKey (keyToString key) s.pending = some pid →
      (arriveN cfg key n s).1 = List.replicate n (GetOutcome.awaitPid pid)
      ∧ (arriveN cfg key n s).2.entries = s.entries
      ∧ (arriveN cfg key n s).2.pending = s.pending
      ∧ (arriveN cfg key n s).2.fetchLog = s.fetchLog := by
  induction n with
  | zero =>
    intro s pid hE hP
    exact ⟨rfl, rfl, rfl, rfl⟩
  | succ n ih =>
    intro s pid hE hP
    have hstep : getStart cfg key s = (GetOutcome.awaitPid pid, bumpMiss s) := by
      rw [getStart_miss hE]
      exact handleMissStart_pending (by simpa using hP)
    have ih' := ih (bumpMiss s) pid (by simpa using hE) (by simpa using hP)
    simp only [arriveN, hstep]
    refine ⟨?_, ?_, ?_, ?_⟩
    · rw [List.replicate_succ]
      rw [ih'.1]
    · rw [ih'.2.1]
      simp
    · rw [ih'.2.2.1]
      simp
    · rw [ih'.2.2.2]
      simp

theorem segsMatch_iff (ka p : List String) :
    segsMatch ka p = true ↔ List.IsPrefix p ka := by
  induction p generalizing ka with
  | nil => simp [segsMatch]
  | cons b bs ih =>
    cases ka with
    | nil => simp [segsMatch]
    | cons a as =>
      rw [segsMatch, List.cons_prefix_cons]
      simp only [Bool.and_eq_true, decide_eq_true_eq, ih]
      constructor
      · intro hh
        exact ⟨hh.1.symm, hh.2⟩
      · intro hh
        exact ⟨hh.1.symm, hh.2⟩

theorem keyStartsWith_iff (ka p : List String) :
    keyStartsWith ka p = true ↔ List.IsPrefix p ka := by
  unfold keyStartsWith
  by_cases h : ka.length < p.length
  · rw [if_pos h]
    constructor
    · intro hh
      exact absurd hh (by simp)
    · intro hpfx
      have := List.IsPrefix.length_le hpfx
      omega
  · rw [if_neg h]
    exact segsMatch_iff ka p

theorem keyStartsWith_nil (ka : List String) : keyStartsWith ka [] = true := by
  rw [keyStartsWith_iff]
  exact List.nil_prefix

theorem keyStartsWith_short {ka p : List String} (h : ka.length < p.length) :
    keyStartsWith ka p = false := by
  unfold keyStartsWith
  rw [if_pos h]

theorem mem_matching_keys (pfx : List String) (es : List (Key × Entry V)) (k : Key) :
    k ∈ (es.filter (fun p => keyStartsWith (splitKeyStr p.1) pfx)).map Prod.fst
      ↔ keyStartsWith (splitKeyStr k) pfx = true ∧ k ∈ keys es := by
  constructor
  · intro hm
    rcases List.mem_map.mp hm with ⟨x, hx, hfst⟩
    have hx2 := List.mem_filter.mp hx
    subst hfst
    exact ⟨hx2.2, List.mem_map.mpr ⟨x, hx2.1, rfl⟩⟩
  · intro hm
    rcases List.mem_map.mp hm.2 with ⟨x, hx, hfst⟩
    subst hfst
    exact List.mem_map.mpr ⟨x, List.mem_filter.mpr ⟨hx, hm.1⟩, rfl⟩

theorem lookupKey_invalidateByPrefix (cfg : Config V) (pfx : List String)
    (s : CState V) (h : NodupKeys s.entries) (k : Key) :
    lookupKey k (invalidateByPrefix cfg pfx s).entries
      = if keyStartsWith (splitKeyStr k) pfx then none else lookupKey k s.entries := by
  unfold invalidateByPrefix
  rw [updSize_entries]
  simp only
  rw [lookupKey_eraseKeys h]
  by_cases hm : keyStartsWith (splitKeyStr k) pfx
  · rw [if_pos hm]
    by_cases hk : k ∈ keys s.entries
    · rw [if_pos ((mem_matching_keys pfx s.entries k).mpr ⟨hm, hk⟩)]
    · by_cases hd : k ∈ (s.entries.filter
          (fun p => keyStartsWith (splitKeyStr p.1) pfx)).map Prod.fst
      · rw [if_pos hd]
      · rw [if_neg hd]
        exact (lookupKey_eq_none_iff k s.entries).mpr hk
  · rw [if_neg hm]
    have hd : k ∉ (s.entries.filter
        (fun p => keyStartsWith (splitKeyStr p.1) pfx)).map Prod.fst := by
      intro hdm
      exact hm ((mem_matching_keys pfx s.entries k).mp hdm).1
    rw [if_neg hd]

theorem invalidateByPrefix_empty (cfg : Config V) (s : CState V) :
    (invalidateByPrefix cfg [] s).entries = [] := by
  unfold invalidateByPrefix
  rw [updSize_entries]
  simp only
  have hf : s.entries.filter (fun p => keyStartsWith (splitKeyStr p.1) []) = s.entries :=
    List.filter_eq_self.mpr (fun p _ => keyStartsWith_nil _)
  rw [hf]
  exact eraseKeys_keys_self s.entries

end CaChing

/-! The claims. -/

namespace CaChing

variable {V : Type}

/-- C1: for every sequence of `set` calls on a cache whose strategy satisfies
the `selectForEviction` contract and whose `maxSize` is positive, after each
`set` call returns the entry count is at most `maxSize`; and whenever a byte
cap is configured, after each `set` the tracked total estimated byte size is
at most the cap or the store is empty (the byte-eviction loop reaches its
exit condition even when a single oversized entry alone exceeds the cap). -/
theorem C1_capacity_invariant (cfg : Config V) (s0 : CState V)
    (hsel : SelSpec cfg.sel) (hmax : 0 < cfg.maxSize) (h0 : NodupKeys s0.entries)
    (calls : List (SetCall V)) (i : Nat) (hi : i < calls.length) :
    (((applySets cfg (calls.take (i + 1)) s0).entries.length : Int) ≤ cfg.maxSize)
    ∧ ∀ cap, capActive cfg = some cap →
        ((applySets cfg (calls.take (i + 1)) s0).stats.sizeBytes ≤ cap
          ∨ (applySets cfg (calls.take (i + 1)) s0).entries = []) := by
  have htake : calls.take (i + 1) = calls.take i ++ [calls[i]] :=
    (List.take_concat_get' calls i hi).symm
  have happ : applySets cfg (calls.take (i + 1)) s0
      = set cfg calls[i].1 calls[i].2.1 calls[i].2.2 (applySets cfg (calls.take i) s0) := by
    rw [htake, applySets_append]
    rfl
  have hN : NodupKeys (applySets cfg (calls.take i) s0).entries :=
    applySets_nodup cfg (calls.take i) s0 h0
  have hp := set_post cfg calls[i].1 calls[i].2.1 calls[i].2.2
    (applySets cfg (calls.take i) s0) hsel (le_of_lt hmax) hN
  rw [happ]
  exact ⟨hp.2.1, hp.2.2⟩

/-- Witness for C1 at a concrete byte-capped LRU cache and three `set` calls
whose values overflow the 10-byte cap. -/
theorem C1_capacity_invariant_witness :
    ((applySets cfgB (callsB.take (2 + 1)) (initState String)).entries.length : Int)
        ≤ cfgB.maxSize
    ∧ ∀ cap, capActive cfgB = some cap →
        (applySets cfgB (callsB.take (2 + 1)) (initState String)).stats.sizeBytes ≤ cap
        ∨ (applySets cfgB (callsB.take (2 + 1)) (initState String)).entries = [] :=
  C1_capacity_invariant cfgB (initState String) selSpec_lru (by decide)
    List.Pairwise.nil callsB 2 (by decide)

end CaChing

namespace CaChing

variable {V : Type}

/-- C2 counterexample: two concurrent `get` callers on the same absent key of
a cache with BOTH a fetch function and a next-level cache configured
(`cfgN`). The interleaving A-start, B-start, A-resume, B-resume is a legal
event-loop schedule: `handleCacheMiss` checks the pending map and then
suspends in `await nextLevelCache.get(...)` BEFORE registering anything, so
both callers pass the (empty) pending check. When the next level reports the
key absent, each resumed caller invokes the fetch function: it runs twice
(`fetchLog = ["k", "k"]`), and the callers hold different promises (pids 0
and 1) — refuting "the fetch function is invoked exactly once and all N
callers receive the identical resolved value ... including when a next-level
cache is also configured". -/
theorem C2_counterexample :
    c2s1.1 = GetOutcome.suspendNext
    ∧ c2s2.1 = GetOutcome.suspendNext
    ∧ c2s3.1 = GetOutcome.awaitPid 0
    ∧ c2s4.1 = GetOutcome.awaitPid 1
    ∧ c2s4.2.fetchLog = ["k", "k"]
    ∧ c2s4.2.fetchLog.length ≠ 1 := by
  decide

/-- C2 amended: when no next-level cache is configured, the synchronous
portion of `get` has no suspension point between the miss detection and the
registration of the shared promise in the pending map, so concurrent callers'
synchronous portions run back-to-back in some order. For every n ≥ 1 such
arrivals on the same normalized key — absent from the (well-formed) entry
store, or present but expired, in which case the first caller's `get` runs
the `isExpired` check, deletes the entry and then reaches the same miss
path — of a cache with a fetch function: the fetch function is invoked
exactly once (one new `fetchLog` element), every caller is attached to the
one shared promise, and when that promise settles every caller receives the
identical resolved value (or identical failure). -/
theorem C2_stampede_amended (cfg : Config V) (key : CacheKey) (s : CState V) (n : Nat)
    (hF : cfg.hasFetch = true) (hN : cfg.hasNextLevel = false)
    (hnd : NodupKeys s.entries)
    (hE : lookupKey (keyToString key) s.entries = none
        ∨ ∃ e, lookupKey (keyToString key) s.entries = some e
            ∧ (isExpiredT cfg e s).1 = true)
    (hP : lookupKey (keyToString key) s.pending = none) (hn : 1 ≤ n) :
    (arriveN cfg key n s).1 = List.replicate n (GetOutcome.awaitPid s.nextPid)
    ∧ (arriveN cfg key n s).2.fetchLog = s.fetchLog ++ [keyToString key]
    ∧ ∀ res o, o ∈ (arriveN cfg key n s).1 → settle o s.nextPid res = some res := by
  obtain ⟨m, rfl⟩ : ∃ m, n = m + 1 := ⟨n - 1, by omega⟩
  obtain ⟨s2, hstep, hE2, hpend2, hpid2, hlog2⟩ :
      ∃ s2, getStart cfg key s = startFetch cfg (keyToString key) s2
        ∧ lookupKey (keyToString key) s2.entries = none
        ∧ s2.pending = s.pending
        ∧ s2.nextPid = s.nextPid
        ∧ s2.fetchLog = s.fetchLog := by
    rcases hE with hE | ⟨e, hl, hex⟩
    · refine ⟨bumpMiss s, ?_, by simpa using hE, by simp, by simp, by simp⟩
      rw [getStart_miss hE]
      exact handleMissStart_fetch (by simpa using hP) hN hF
    · refine ⟨bumpMiss (updSize cfg
        { (isExpiredT cfg e s).2 with
          entries := eraseKey (keyToString key) (isExpiredT cfg e s).2.entries }),
        ?_, ?_, ?_, ?_, ?_⟩
      · rw [getStart_expired hl hex]
        exact handleMissStart_fetch (by simpa using hP) hN hF
      · simp only [bumpMiss_entries, updSize_entries]
        show lookupKey (keyToString key)
          (eraseKey (keyToString key) (isExpiredT cfg e s).2.entries) = none
        rw [isExpiredT_entries]
        exact lookupKey_eraseKey_self hnd (keyToString key)
      · simp
      · simp
      · simp
  have hsh := arriveN_shared cfg key m (startFetch cfg (keyToString key) s2).2 s.nextPid
    (by simpa using hE2)
    (by
      show lookupKey (keyToString key)
        (setKey (keyToString key) s2.nextPid s2.pending) = some s.nextPid
      rw [lookupKey_setKey_self, hpid2])
  have h1 : (arriveN cfg key (m + 1) s).1
      = List.replicate (m + 1) (GetOutcome.awaitPid s.nextPid) := by
    simp only [arriveN, hstep]
    rw [List.replicate_succ]
    have hout : (startFetch cfg (keyToString key) s2).1
        = GetOutcome.awaitPid s.nextPid := by
      rw [startFetch_outcome, hpid2]
    rw [hout, hsh.1]
  refine ⟨h1, ?_, ?_⟩
  · simp only [arriveN, hstep]
    rw [hsh.2.2.2, startFetch_fetchLog, hlog2]
  · intro res o ho
    rw [h1] at ho
    rw [List.eq_of_mem_replicate ho]
    simp [settle]

/-- Witness for the amended C2, exercising the expired-entry start: three
arrivals on `sE`, whose "k" entry (stored at t=1000, ttl 1000) is expired at
the t=2002 samples; the first caller deletes it and registers the one fetch,
the other two attach to the same promise. -/
theorem C2_stampede_amended_witness :
    (arriveN cfgFE (CacheKey.str "k") 3 sE).1
        = List.replicate 3 (GetOutcome.awaitPid 0)
    ∧ (arriveN cfgFE (CacheKey.str "k") 3 sE).2.fetchLog = ["k"]
    ∧ ∀ res o, o ∈ (arriveN cfgFE (CacheKey.str "k") 3 sE).1 →
        settle o 0 res = some res :=
  C2_stampede_amended cfgFE (CacheKey.str "k") sE 3 rfl rfl (by decide)
    (Or.inr ⟨_, rfl, by decide⟩) (by decide) (by decide)

end CaChing

namespace CaChing

theorem createEvictionStrategy_unknown {p : String} (h1 : p ≠ "lru") (h2 : p ≠ "filo")
    (h3 : p ≠ "random") :
    createEvictionStrategy p = Except.error ("Unsupported eviction policy: " ++ p) := by
  unfold createEvictionStrategy
  split
  · exact absurd rfl h1
  · exact absurd rfl h2
  · exact absurd rfl h3
  · rfl

/-- C3 counterexample: the `InMemoryCache` constructor validates only the
`prefetchAfter`/`ttl` relation and (through `createEvictionStrategy`) the
policy name; `maxSize` is never inspected, so construction with
`maxSize = 0` — and even `maxSize = -5` — succeeds instead of throwing,
refuting "cache construction fails fast (throws) ... when maxSize is
non-positive". -/
theorem C3_counterexample :
    constructCache
        { maxSize := 0, maxSizeBytes := none, ttl := none,
          prefetchAfter := none, evictionPolicy := "lru" }
      = Except.ok EvictionPolicy.lru
    ∧ constructCache
        { maxSize := -5, maxSizeBytes := none, ttl := none,
          prefetchAfter := none, evictionPolicy := "lru" }
      = Except.ok EvictionPolicy.lru :=
  ⟨rfl, rfl⟩

/-- C3 amended: construction fails fast exactly for the two checks the
constructor performs — an eviction policy name other than lru/filo/random,
and `prefetchAfter >= ttl` when both are set and nonzero (JS truthiness) —
while `maxSize` is not validated at all: the construction result is
invariant under changing `maxSize`, so a non-positive `maxSize` is silently
accepted. -/
theorem C3_construction_amended :
    (∀ o : RawOptions, o.evictionPolicy ≠ "lru" → o.evictionPolicy ≠ "filo" →
      o.evictionPolicy ≠ "random" → ∃ msg, constructCache o = Except.error msg)
    ∧ (∀ o : RawOptions, truthyI o.prefetchAfter = true → truthyI o.ttl = true →
        o.ttl.getD 0 ≤ o.prefetchAfter.getD 0 →
        constructCache o = Except.error "prefetchAfter must be less than ttl")
    ∧ (∀ (o : RawOptions) (m : Int),
        constructCache { o with maxSize := m } = constructCache o) := by
  refine ⟨?_, ?_, ?_⟩
  · intro o h1 h2 h3
    unfold constructCache
    by_cases hv : (truthyI o.prefetchAfter && truthyI o.ttl
        && decide (o.ttl.getD 0 ≤ o.prefetchAfter.getD 0)) = true
    · rw [if_pos hv]
      exact ⟨_, rfl⟩
    · rw [if_neg hv]
      exact ⟨_, createEvictionStrategy_unknown h1 h2 h3⟩
  · intro o h1 h2 h3
    unfold constructCache
    rw [if_pos]
    rw [h1, h2]
    simpa using h3
  · intro o m
    rfl

/-- Witness for the amended C3: the misspelled policy "fifo" and the
prefetchAfter = ttl = 1000 configuration are both rejected. -/
theorem C3_construction_amended_witness :
    (∃ msg, constructCache
        { maxSize := 100, maxSizeBytes := none, ttl := none,
          prefetchAfter := none, evictionPolicy := "fifo" }
      = Except.error msg)
    ∧ constructCache
        { maxSize := 100, maxSizeBytes := none, ttl := some 1000,
          prefetchAfter := some 1000, evictionPolicy := "lru" }
      = Except.error "prefetchAfter must be less than ttl" :=
  ⟨C3_construction_amended.1
      { maxSize := 100, maxSizeBytes := none, ttl := none,
        prefetchAfter := none, evictionPolicy := "fifo" }
      (by decide) (by decide) (by decide),
   C3_construction_amended.2.1
      { maxSize := 100, maxSizeBytes := none, ttl := some 1000,
        prefetchAfter := some 1000, evictionPolicy := "lru" }
      (by decide) (by decide) (by decide)⟩

end CaChing

namespace CaChing

variable {V : Type}

/-- C4 counterexample: an entry stored with a per-entry ttl of 0 (cache
default ttl 1000, time frozen at 0). The stored entry's ttl field is
`some 0` — nullish coalescing `ttl ?? options.ttl` keeps the 0 instead of
inheriting the default — and at now = 5000 the entry satisfies
now - createdAt > ttl, yet `isExpired` returns false because `!entry.ttl`
treats 0 as "no TTL". Under either reading of "has a TTL" (0 is a per-entry
TTL, or 0 means the default 1000 is inherited) the claim's dichotomy fails
at this input. -/
theorem C4_counterexample :
    lookupKey "k" (set cfgT (CacheKey.str "k") (Val.direct "v") (some 0)
        (initState String)).entries
      = some { value := Val.direct "v", createdAt := 0, lastAccessedAt := 0,
               ttl := some 0, sizeBytes := none, isPrefetching := false, eid := 0 }
    ∧ isExpiredAt 5000
        { value := Val.direct "v", createdAt := 0, lastAccessedAt := 0,
          ttl := some 0, sizeBytes := none, isPrefetching := false,
          eid := (0 : Nat) }
      = false
    ∧ ((5000 : Int) - 0 > 0) := by
  refine ⟨rfl, rfl, by decide⟩

/-- C4 amended: an entry whose stored ttl field is absent OR zero never
expires (`!entry.ttl` is falsy for 0, and a per-entry ttl of 0 overrides the
cache default via `??`, disabling expiry); an entry with a nonzero ttl is
expired exactly when now - createdAt > ttl (strict inequality); and the
round-trip holds: with ttl 1000, an entry set at t=1000 is still returned by
a `get` at t=2000 and is absent (expired) at a `get` at t=2002. -/
theorem C4_expiry_amended :
    (∀ (now : Int) (e : Entry V), e.ttl = none → isExpiredAt now e = false)
    ∧ (∀ (now : Int) (e : Entry V), e.ttl = some 0 → isExpiredAt now e = false)
    ∧ (∀ (now : Int) (e : Entry V) (t : Int), e.ttl = some t → t ≠ 0 →
        (isExpiredAt now e = true ↔ now - e.createdAt > t))
    ∧ (getStart cfgC4 (CacheKey.str "k") c4s1).1 = GetOutcome.done (some "v")
    ∧ (getStart cfgC4 (CacheKey.str "k") (getStart cfgC4 (CacheKey.str "k") c4s1).2).1
        = GetOutcome.done none := by
  refine ⟨?_, ?_, ?_, by decide, by decide⟩
  · intro now e h
    simp [isExpiredAt, h]
  · intro now e h
    simp [isExpiredAt, h]
  · intro now e t h ht
    simp [isExpiredAt, h, ht]

/-- Witness for the amended C4: a concrete nonzero-ttl entry at now = 5. -/
theorem C4_expiry_amended_witness :
    isExpiredAt 5
        { value := Val.direct "v", createdAt := 0, lastAccessedAt := 0,
          ttl := some 2, sizeBytes := none, isPrefetching := false,
          eid := (0 : Nat) }
      = true
    ↔ (5 : Int) - 0 > 2 :=
  (@C4_expiry_amended String).2.2.1 5
    { value := Val.direct "v", createdAt := 0, lastAccessedAt := 0,
      ttl := some 2, sizeBytes := none, isPrefetching := false, eid := 0 }
    2 rfl (by decide)

end CaChing

namespace CaChing

variable {V : Type}

/-- C5: `getIfAvailable` is synchronous and total — it is a plain function
into `Option V`, so it never fails, never suspends, and (first conjunct)
never triggers a fetch, a next-level lookup, or a prefetch: the fetch log,
next-level log, pending map, and the whole statistics record (including the
prefetch counter) are unchanged. It returns absent for a missing entry, an
expired entry, or an entry whose stored value is an unresolved future, and
returns the stored value otherwise. -/
theorem C5_getIfAvailable (cfg : Config V) (key : CacheKey) (s : CState V) :
    ((getIfAvailable cfg key s).2.fetchLog = s.fetchLog
      ∧ (getIfAvailable cfg key s).2.nextLog = s.nextLog
      ∧ (getIfAvailable cfg key s).2.pending = s.pending
      ∧ (getIfAvailable cfg key s).2.stats = s.stats)
    ∧ (lookupKey (keyToString key) s.entries = none →
        (getIfAvailable cfg key s).1 = none)
    ∧ (∀ e, lookupKey (keyToString key) s.entries = some e →
        (isExpiredT cfg e s).1 = true → (getIfAvailable cfg key s).1 = none)
    ∧ (∀ e pid, lookupKey (keyToString key) s.entries = some e →
        (isExpiredT cfg e s).1 = false → e.value = Val.promiseRef pid →
        (getIfAvailable cfg key s).1 = none)
    ∧ (∀ e v, lookupKey (keyToString key) s.entries = some e →
        (isExpiredT cfg e s).1 = false → e.value = Val.direct v →
        (getIfAvailable cfg key s).1 = some v) := by
  refine ⟨?_, ?_, ?_, ?_, ?_⟩
  · cases hl : lookupKey (keyToString key) s.entries with
    | none =>
      rw [getIfAvailable_absent hl]
      exact ⟨rfl, rfl, rfl, rfl⟩
    | some e =>
      by_cases hex : (isExpiredT cfg e s).1 = true
      · rw [getIfAvailable_expired hl hex]
        simp
      · have hex' : (isExpiredT cfg e s).1 = false := by
          simpa using hex
        rw [getIfAvailable_live hl hex']
        simp
  · intro hl
    rw [getIfAvailable_absent hl]
  · intro e hl hex
    rw [getIfAvailable_expired hl hex]
  · intro e pid hl hex hv
    rw [getIfAvailable_live hl hex]
    simp [hv]
  · intro e v hl hex hv
    rw [getIfAvailable_live hl hex]
    simp [hv]

/-- Witness for C5: on the concrete cache `c4s1`, the present live key "k"
is returned and the missing key "m" yields absent. -/
theorem C5_getIfAvailable_witness :
    (getIfAvailable cfgC4 (CacheKey.str "k") c4s1).1 = some "v"
    ∧ (getIfAvailable cfgC4 (CacheKey.str "m") c4s1).1 = none :=
  ⟨(C5_getIfAvailable cfgC4 (CacheKey.str "k") c4s1).2.2.2.2 _ "v" rfl (by decide) rfl,
   (C5_getIfAvailable cfgC4 (CacheKey.str "m") c4s1).2.1 rfl⟩

end CaChing

namespace CaChing

variable {V : Type}

/-- C6: under a strictly increasing time source all `lastAccessedAt` values
are distinct, and then the LRU `selectForEviction` (sort ascending by
`lastAccessedAt`, slice `targetCount`) selects `min targetCount count` keys,
each of which was accessed strictly earlier than every non-selected entry —
i.e. exactly the `targetCount` entries with the smallest `lastAccessedAt`.
Concretely: a capacity-3 LRU cache, inserting k1,k2,k3, reading k1, then
inserting k4 evicts exactly k2 (one eviction; k1,k3,k4 remain). -/
theorem C6_lru (es : List (Key × Entry V)) (n : Nat) (hk : NodupKeys es)
    (ht : (es.map (fun p => p.2.lastAccessedAt)).Nodup) :
    ((lruSelect es n).length = min n es.length
      ∧ ∀ p ∈ es, ∀ q ∈ es, p.1 ∈ lruSelect es n → q.1 ∉ lruSelect es n →
          p.2.lastAccessedAt < q.2.lastAccessedAt)
    ∧ (c6run.entries.map Prod.fst = ["k1", "k3", "k4"]
        ∧ c6run.stats.evictions = 1) := by
  refine ⟨⟨selSpec_lru.length_eq es n hk, ?_⟩, by decide, by decide⟩
  intro p hp q hq hpin hqout
  exact lruSelect_smallest hk ht hp hq hpin hqout

/-- Witness for C6 at the two-entry store `esW` with target count 1. -/
theorem C6_lru_witness :
    ((lruSelect esW 1).length = min 1 esW.length
      ∧ ∀ p ∈ esW, ∀ q ∈ esW, p.1 ∈ lruSelect esW 1 → q.1 ∉ lruSelect esW 1 →
          p.2.lastAccessedAt < q.2.lastAccessedAt)
    ∧ (c6run.entries.map Prod.fst = ["k1", "k3", "k4"]
        ∧ c6run.stats.evictions = 1) :=
  C6_lru esW 1 (by decide) (by decide)

end CaChing

namespace CaChing

variable {V : Type}

theorem getStart_prefetch_eligible (cfg : Config V) (key : CacheKey) (s : CState V)
    (e : Entry V)
    (hl : lookupKey (keyToString key) s.entries = some e)
    (hT : truthyI e.ttl = true)
    (hNE : isExpiredAt (cfg.timeFn s.clock) e = false)
    (hPA : truthyI cfg.prefetchAfter = true)
    (hAge : cfg.prefetchAfter.getD 0 ≤ cfg.timeFn (s.clock + 1 + 1) - e.createdAt)
    (hFlag : e.isPrefetching = false)
    (hF : cfg.hasFetch = true) :
    (getStart cfg key s).1
        = (match e.value with
           | Val.promiseRef p => GetOutcome.awaitPid p
           | Val.direct v => GetOutcome.done (some v))
    ∧ (getStart cfg key s).2.stats.prefetches = s.stats.prefetches + 1
    ∧ (getStart cfg key s).2.fetchLog = s.fetchLog ++ [keyToString key]
    ∧ lookupKey (keyToString key) (getStart cfg key s).2.entries
        = some { e with lastAccessedAt := cfg.timeFn (s.clock + 1),
                        isPrefetching := true } := by
  have hex : (isExpiredT cfg e s).1 = false := by
    rw [isExpiredT_of_truthy hT]
    simpa using hNE
  rw [getStart_live hl hex]
  simp only [isExpiredT_of_truthy hT, shouldPrefetchT, tick, hPA, hT,
    decide_eq_true hAge, hFlag, hF, Bool.not_false, Bool.and_true,
    Bool.true_and, Bool.and_self, if_true]
  refine ⟨?_, ?_, ?_, ?_⟩
  · cases hv : e.value <;> simp [hv]
  · simp [bumpHit, updHitRatio]
  · simp
  · simp only [bumpHit_entries]
    exact lookupKey_setKey_self _ _ _

theorem getStart_no_second_prefetch (cfg : Config V) (key : CacheKey) (s : CState V)
    (e : Entry V)
    (hl : lookupKey (keyToString key) s.entries = some e)
    (hex : (isExpiredT cfg e s).1 = false)
    (hFlag : e.isPrefetching = true) :
    (getStart cfg key s).2.fetchLog = s.fetchLog
    ∧ (getStart cfg key s).2.stats.prefetches = s.stats.prefetches := by
  rw [getStart_live hl hex]
  simp only [hFlag, Bool.not_true, Bool.and_false, Bool.false_and, if_false]
  constructor
  · simp
  · simp [bumpHit, updHitRatio]

/-- C7: a `get` that hits an entry which is not expired, whose ttl and the
configured `prefetchAfter` are both truthy, whose age at the prefetch check
is at least the threshold, which is not already marked `isPrefetching`, and
with a fetch function configured: the caller receives the pre-refresh stored
value without being blocked by the new fetch (the outcome is determined by
the OLD entry value), the `prefetches` counter is incremented, exactly one
background fetch is started (one new `fetchLog` element), and the entry is
marked `isPrefetching` — so (second conjunct) a concurrent read during the
refresh window hitting the marked entry starts NO further fetch and leaves
`prefetches` unchanged (at most one refresh in flight per entry). The
refreshing mark is cleared regardless of success or failure: after the
success continuation (`set` then clear) the entry stored at the key is not
marked (third conjunct), and after the failure continuation the captured
entry's mark is cleared in place (fourth conjunct). -/
theorem C7_prefetch :
    (∀ (cfg : Config V) (key : CacheKey) (s : CState V) (e : Entry V),
      lookupKey (keyToString key) s.entries = some e →
      truthyI e.ttl = true →
      isExpiredAt (cfg.timeFn s.clock) e = false →
      truthyI cfg.prefetchAfter = true →
      cfg.prefetchAfter.getD 0 ≤ cfg.timeFn (s.clock + 1 + 1) - e.createdAt →
      e.isPrefetching = false →
      cfg.hasFetch = true →
      (getStart cfg key s).1
          = (match e.value with
             | Val.promiseRef p => GetOutcome.awaitPid p
             | Val.direct v => GetOutcome.done (some v))
      ∧ (getStart cfg key s).2.stats.prefetches = s.stats.prefetches + 1
      ∧ (getStart cfg key s).2.fetchLog = s.fetchLog ++ [keyToString key]
      ∧ lookupKey (keyToString key) (getStart cfg key s).2.entries
          = some { e with lastAccessedAt := cfg.timeFn (s.clock + 1),
                          isPrefetching := true })
    ∧ (∀ (cfg : Config V) (key : CacheKey) (s : CState V) (e : Entry V),
      lookupKey (keyToString key) s.entries = some e →
      (isExpiredT cfg e s).1 = false →
      e.isPrefetching = true →
      (getStart cfg key s).2.fetchLog = s.fetchLog
      ∧ (getStart cfg key s).2.stats.prefetches = s.stats.prefetches)
    ∧ (∀ (cfg : Config V) (key : CacheKey) (v : V) (eidC : Nat) (s : CState V),
      NodupKeys s.entries →
      ∀ e', lookupKey (keyToString key)
          (resolvePrefetchSuccess cfg key v eidC s).entries = some e' →
        e'.isPrefetching = false)
    ∧ (∀ (cfg : Config V) (key : CacheKey) (eidC : Nat) (s : CState V) (e : Entry V),
      lookupKey (keyToString key) s.entries = some e →
      e.eid = eidC →
      lookupKey (keyToString key) (resolvePrefetchFailure cfg key eidC s).entries
        = some { e with isPrefetching := false }) := by
  refine ⟨?_, ?_, ?_, ?_⟩
  · intro cfg key s e hl hT hNE hPA hAge hFlag hF
    exact getStart_prefetch_eligible cfg key s e hl hT hNE hPA hAge hFlag hF
  · intro cfg key s e hl hex hFlag
    exact getStart_no_second_prefetch cfg key s e hl hex hFlag
  · intro cfg key v eidC s hnd e' h'
    apply clearFlagIfEid_keeps_false ?_ e' h'
    intro e0 he0
    rcases lookupKey_set_self cfg key (Val.direct v) none s hnd with h1 | h1
    · rw [h1] at he0
      injection he0 with hh
      rw [← hh]
      rfl
    · rw [h1] at he0
      exact absurd he0 (by simp)
  · intro cfg key eidC s e hl he
    exact clearFlagIfEid_of_eid hl he

/-- Witness for C7: the `cfgP` scenario (ttl 1000, prefetchAfter 500, entry
set at t=0, read at t=600). -/
theorem C7_prefetch_witness :
    (getStart cfgP (CacheKey.str "k") sP).1 = GetOutcome.done (some "v")
    ∧ (getStart cfgP (CacheKey.str "k") sP).2.stats.prefetches = 1
    ∧ (getStart cfgP (CacheKey.str "k") sP).2.fetchLog = ["k"]
    ∧ lookupKey "k" (getStart cfgP (CacheKey.str "k") sP).2.entries
        = some { value := Val.direct "v", createdAt := 0, lastAccessedAt := 600,
                 ttl := some 1000, sizeBytes := none, isPrefetching := true,
                 eid := 0 } :=
  C7_prefetch.1 cfgP (CacheKey.str "k") sP
    { value := Val.direct "v", createdAt := 0, lastAccessedAt := 0,
      ttl := some 1000, sizeBytes := none, isPrefetching := false, eid := 0 }
    rfl (by decide) (by decide) (by decide) (by decide) rfl rfl

end CaChing

namespace CaChing

variable {V : Type}

/-- C8: when a miss-triggered fetch fails, only the `finally` clause runs:
nothing is stored (the entry store is untouched, so the failed future is
never left as a cached value) and the pending-map entry for the key is
removed; on success the pending entry is removed as well (after the `set`).
A subsequent `get` on the still-absent key after a failure therefore starts a
fresh fetch (a new `fetchLog` element and a fresh promise) instead of
reattaching. Finally, every caller attached to the shared promise receives
the promise's one settlement — the identical failure (or value). -/
theorem C8_fetch_failure :
    (∀ (cfg : Config V) (key : CacheKey) (s : CState V),
      (resolveMissFetchFailure cfg key s).entries = s.entries)
    ∧ (∀ (cfg : Config V) (key : CacheKey) (s : CState V), NodupKeys s.pending →
      lookupKey (keyToString key) (resolveMissFetchFailure cfg key s).pending = none)
    ∧ (∀ (cfg : Config V) (key : CacheKey) (v : V) (s : CState V), NodupKeys s.pending →
      lookupKey (keyToString key) (resolveMissFetchSuccess cfg key v s).pending = none)
    ∧ (∀ (cfg : Config V) (key : CacheKey) (s : CState V),
      cfg.hasNextLevel = false → cfg.hasFetch = true →
      lookupKey (keyToString key) s.entries = none → NodupKeys s.pending →
      (getStart cfg key (resolveMissFetchFailure cfg key s)).2.fetchLog
          = s.fetchLog ++ [keyToString key]
      ∧ (getStart cfg key (resolveMissFetchFailure cfg key s)).1
          = GetOutcome.awaitPid s.nextPid)
    ∧ (∀ (pid : Nat) (res : Except Unit V) (o : GetOutcome V),
        o = GetOutcome.awaitPid pid → settle o pid res = some res) := by
  refine ⟨?_, ?_, ?_, ?_, ?_⟩
  · intro cfg key s
    rfl
  · intro cfg key s hnd
    exact lookupKey_eraseKey_self hnd (keyToString key)
  · intro cfg key v s hnd
    show lookupKey (keyToString key)
      (eraseKey (keyToString key) (set cfg key (Val.direct v) none s).pending) = none
    rw [(set_frame cfg key (Val.direct v) none s).1]
    exact lookupKey_eraseKey_self hnd (keyToString key)
  · intro cfg key s hN hF hE hnd
    have hE' : lookupKey (keyToString key)
        (resolveMissFetchFailure cfg key s).entries = none := hE
    have hP' : lookupKey (keyToString key)
        (resolveMissFetchFailure cfg key s).pending = none :=
      lookupKey_eraseKey_self hnd (keyToString key)
    have hstep : getStart cfg key (resolveMissFetchFailure cfg key s)
        = startFetch cfg (keyToString key)
            (bumpMiss (resolveMissFetchFailure cfg key s)) := by
      rw [getStart_miss hE']
      exact handleMissStart_fetch (by simpa using hP') hN hF
    rw [hstep]
    exact ⟨by simp [resolveMissFetchFailure], by simp [resolveMissFetchFailure]⟩
  · intro pid res o ho
    subst ho
    simp [settle]

end CaChing

namespace CaChing

/-- Witness for C8: after the in-flight fetch of `sMid` fails, a new `get`
starts a fresh fetch with a fresh promise (pid 1, second fetchLog entry). -/
theorem C8_fetch_failure_witness :
    (getStart cfgF (CacheKey.str "k")
        (resolveMissFetchFailure cfgF (CacheKey.str "k") sMid)).2.fetchLog
      = ["k", "k"]
    ∧ (getStart cfgF (CacheKey.str "k")
        (resolveMissFetchFailure cfgF (CacheKey.str "k") sMid)).1
      = GetOutcome.awaitPid 1 :=
  (@C8_fetch_failure String).2.2.2.1 cfgF (CacheKey.str "k") sMid rfl rfl
    (by decide) (by decide)

end CaChing

namespace CaChing

variable {V : Type}

/-- C9: `invalidateByPrefix` removes exactly the entries whose normalized
segment sequence (`keyStr.split('::')`) begins with the given segments: the
post-lookup of any key is absent iff the key matched (segment-by-segment
matching, characterized as `List.IsPrefix`), other entries are untouched; a
single-segment key is a one-element sequence, never matched by a prefix of
two or more segments; the empty prefix matches (removes) every entry; and
the concrete scenario holds: of ["user","123","profile"],
["user","123","settings"], ["user","456","profile"] and the single-segment
key "user", invalidating by ["user","123"] removes exactly the first two. -/
theorem C9_prefix_invalidation :
    (∀ (cfg : Config V) (pfx : List String) (s : CState V), NodupKeys s.entries →
      ∀ k, lookupKey k (invalidateByPrefix cfg pfx s).entries
        = if keyStartsWith (splitKeyStr k) pfx then none else lookupKey k s.entries)
    ∧ (∀ ka pfx, keyStartsWith ka pfx = true ↔ List.IsPrefix pfx ka)
    ∧ (∀ (ka pfx : List String), ka.length = 1 → 2 ≤ pfx.length →
        keyStartsWith ka pfx = false)
    ∧ (∀ (cfg : Config V) (s : CState V), (invalidateByPrefix cfg [] s).entries = [])
    ∧ ((invalidateByPrefix cfgF ["user", "123"] s9).entries.map Prod.fst
        = ["user::456::profile", "user"]
      ∧ keyStartsWith (splitKeyStr "user") ["user", "123"] = false) := by
  refine ⟨?_, ?_, ?_, ?_, by decide, by decide⟩
  · intro cfg pfx s h k
    exact lookupKey_invalidateByPrefix cfg pfx s h k
  · exact keyStartsWith_iff
  · intro ka pfx h1 h2
    exact keyStartsWith_short (by omega)
  · exact invalidateByPrefix_empty

/-- Witness for C9: the untouched single-segment key "user" of the concrete
scenario. -/
theorem C9_prefix_invalidation_witness :
    lookupKey "user" (invalidateByPrefix cfgF ["user", "123"] s9).entries
      = if keyStartsWith (splitKeyStr "user") ["user", "123"] then none
        else lookupKey "user" s9.entries :=
  (@C9_prefix_invalidation String).1 cfgF ["user", "123"] s9 (by decide) "user"

end CaChing

namespace CaChing

variable {V : Type}

/-- C10: `getIfAvailable` on a present, non-expired entry updates the entry's
`lastAccessedAt` (in place) to the freshly sampled current time — thereby
changing LRU eviction order, demonstrated concretely in the last conjunct —
while the whole statistics record (hits, misses, hitRatio, ...) is unchanged;
on a present but expired entry `getIfAvailable` leaves the entry store
completely untouched (entry count unchanged) and the stats unchanged, whereas
`get` on the same expired entry deletes it from the store. (The strategies'
`onAccess` hooks are empty in the source; the observable LRU-order effect is
exactly the `lastAccessedAt` update.) -/
theorem C10_getIfAvailable_frame :
    (∀ (cfg : Config V) (key : CacheKey) (s : CState V) (e : Entry V),
      lookupKey (keyToString key) s.entries = some e →
      (isExpiredT cfg e s).1 = false →
      (getIfAvailable cfg key s).2.entries
          = setKey (keyToString key)
              { e with lastAccessedAt := cfg.timeFn (isExpiredT cfg e s).2.clock }
              s.entries
      ∧ (getIfAvailable cfg key s).2.stats = s.stats)
    ∧ (∀ (cfg : Config V) (key : CacheKey) (s : CState V) (e : Entry V),
      lookupKey (keyToString key) s.entries = some e →
      (isExpiredT cfg e s).1 = true →
      (getIfAvailable cfg key s).2.entries = s.entries
      ∧ (getIfAvailable cfg key s).2.stats = s.stats)
    ∧ (∀ (cfg : Config V) (key : CacheKey) (s : CState V) (e : Entry V),
      NodupKeys s.entries →
      lookupKey (keyToString key) s.entries = some e →
      (isExpiredT cfg e s).1 = true →
      lookupKey (keyToString key) (getStart cfg key s).2.entries = none)
    ∧ (lruSelect s10.entries 1 = ["k1"]
      ∧ lruSelect (getIfAvailable cfgLru3 (CacheKey.str "k1") s10).2.entries 1
          = ["k2"]) := by
  refine ⟨?_, ?_, ?_, by decide⟩
  · intro cfg key s e hl hex
    rw [getIfAvailable_live hl hex]
    constructor
    · simp
    · simp
  · intro cfg key s e hl hex
    rw [getIfAvailable_expired hl hex]
    exact ⟨by simp, by simp⟩
  · intro cfg key s e hnd hl hex
    rw [getStart_expired hl hex]
    rw [handleMissStart_entries]
    simp only [bumpMiss_entries, updSize_entries, isExpiredT_entries]
    exact lookupKey_eraseKey_self hnd (keyToString key)

/-- Witness for C10: reading k1 via `getIfAvailable` on the two-entry store
`s10` refreshes its access time to 2 and leaves the stats unchanged. -/
theorem C10_getIfAvailable_frame_witness :
    (getIfAvailable cfgLru3 (CacheKey.str "k1") s10).2.entries
        = setKey "k1"
            { value := Val.direct "a", createdAt := 0, lastAccessedAt := 2,
              ttl := none, sizeBytes := none, isPrefetching := false, eid := 0 }
            s10.entries
    ∧ (getIfAvailable cfgLru3 (CacheKey.str "k1") s10).2.stats = s10.stats :=
  (@C10_getIfAvailable_frame String).1 cfgLru3 (CacheKey.str "k1") s10
    { value := Val.direct "a", createdAt := 0, lastAccessedAt := 0,
      ttl := none, sizeBytes := none, isPrefetching := false, eid := 0 }
    rfl (by decide)

end CaChing
